import Mathlib

/-!
Verification development for the IDOR scan engine
(`src/app/api/scan/route.ts`).

Strings are modelled as `List Char`.  JavaScript regular-expression
replacement (`String.replace` with the `g` flag) is modelled by an
explicit left-to-right scanner: at every position of the original
string a matcher is tried; on success the matched characters are
consumed and the replacement emitted, on failure one character is
copied and the scan advances.  Word boundaries (`\b`) are modelled by
tracking the previous original character.
-/

/-- JS `\d`: the ASCII digits. -/
def isDigitC (c : Char) : Bool := '0' ≤ c && c ≤ '9'

/-- JS word character (`\w`, used by `\b`): `[A-Za-z0-9_]`. -/
def isWordC (c : Char) : Bool :=
  isDigitC c || ('a' ≤ c && c ≤ 'z') || ('A' ≤ c && c ≤ 'Z') || c == '_'

/-- Hex digit, case-insensitive (the uuid regex has the `i` flag). -/
def isHexC (c : Char) : Bool := isDigitC c || ('a' ≤ c && c ≤ 'f') || ('A' ≤ c && c ≤ 'F')

/-- JS `\s` (restricted to the common whitespace characters). -/
def isSpaceC (c : Char) : Bool :=
  c == ' ' || c == '\t' || c == '\n' || c == '\r' || c == '\x0b' || c == '\x0c'

/-- `\b` seen from the left of a word character: start of string or a
non-word previous character. -/
def boundaryOk (prev : Option Char) : Bool :=
  match prev with
  | none => true
  | some c => !isWordC c

/-- `\b` seen from the right of a word character: end of string or a
non-word next character. -/
def afterOk : List Char → Bool
  | [] => true
  | c :: _ => !isWordC c

/-- Last character of `c :: l`. -/
def lastD : Char → List Char → Char
  | c, [] => c
  | _, x :: xs => lastD x xs

/-- A matcher receives the previous original character, the character at
the current position and the remaining characters; on success it
returns the number of *additional* characters consumed (total consumed
is that plus one) and the replacement text. -/
def Matcher : Type := Option Char → Char → List Char → Option (Nat × List Char)

/-- Fueled scanner core for global regex replacement. -/
def scanGo (M : Matcher) : Nat → Option Char → List Char → List Char
  | 0, _, _ => []
  | _ + 1, _, [] => []
  | fuel + 1, prev, c :: cs =>
    match M prev c cs with
    | some (k, rep) => rep ++ scanGo M fuel (some (lastD c (cs.take k))) (cs.drop k)
    | none => c :: scanGo M fuel (some c) cs

/-- Global regex replacement over a whole string (JS `.replace(/…/g, …)`). -/
def scanRepl (M : Matcher) (s : List Char) : List Char := scanGo M s.length none s

/-- Replacement token `<num>`. -/
def numTok : List Char := ['<', 'n', 'u', 'm', '>']

/-- Matcher for `/\b\d{13,}\b/g`: a maximal run of at least 13 digits
with word boundaries on both sides. -/
def tryNum : Matcher := fun prev c cs =>
  if boundaryOk prev && isDigitC c then
    let ds := cs.takeWhile isDigitC
    if 13 ≤ ds.length + 1 && afterOk (cs.drop ds.length) then
      some (ds.length, numTok)
    else none
  else none

/-- Version nibble `[1-5]` of the uuid regex. -/
def isVerC (c : Char) : Bool := '1' ≤ c && c ≤ '5'

/-- Variant nibble `[89ab]` with the `i` flag. -/
def isVarC (c : Char) : Bool :=
  c == '8' || c == '9' || c == 'a' || c == 'b' || c == 'A' || c == 'B'

def isDashC (c : Char) : Bool := c == '-'

/-- Character classes of the 36-character uuid pattern
`[0-9a-f]{8}-[0-9a-f]{4}-[1-5][0-9a-f]{3}-[89ab][0-9a-f]{3}-[0-9a-f]{12}`. -/
def uuidPat : List (Char → Bool) :=
  List.replicate 8 isHexC ++ [isDashC] ++ List.replicate 4 isHexC ++ [isDashC] ++
    [isVerC] ++ List.replicate 3 isHexC ++ [isDashC] ++ [isVarC] ++
    List.replicate 3 isHexC ++ [isDashC] ++ List.replicate 12 isHexC

/-- Match a list of character predicates against a prefix; returns the rest. -/
def matchPreds : List (Char → Bool) → List Char → Option (List Char)
  | [], s => some s
  | _ :: _, [] => none
  | p :: ps, c :: cs => if p c then matchPreds ps cs else none

/-- Replacement token `<uuid>`. -/
def uuidTok : List Char := ['<', 'u', 'u', 'i', 'd', '>']

/-- Matcher for the uuid regex (with `\b` on both sides, `i` flag). -/
def tryUuid : Matcher := fun prev c cs =>
  if boundaryOk prev then
    match matchPreds uuidPat (c :: cs) with
    | some rest => if afterOk rest then some (35, uuidTok) else none
    | none => none
  else none

/-- Case-insensitive character comparison (ASCII, as JS `i` without `u`). -/
def eqIC (a b : Char) : Bool := a.toLower == b.toLower

/-- Strip a key case-insensitively from the front of `s`; returns the
matched original characters and the rest. -/
def stripKey : List Char → List Char → Option (List Char × List Char)
  | [], s => some ([], s)
  | _ :: _, [] => none
  | k :: ks, c :: cs =>
    if eqIC k c then (stripKey ks cs).map (fun m => (c :: m.1, m.2)) else none

/-- The alternation `(created|updated|timestamp|ts|date)` in source order. -/
def tsKeys : List (List Char) :=
  ["created".toList, "updated".toList, "timestamp".toList, "ts".toList, "date".toList]

/-- Try each alternative key; the key must be followed by a closing quote. -/
def tryTsKey : List (List Char) → List Char → Option (List Char × List Char)
  | [], _ => none
  | k :: ks, s =>
    match stripKey k s with
    | some (m, '"' :: rest) => some (m, rest)
    | _ => tryTsKey ks s

/-- Replacement token `<ts>`. -/
def tsTok : List Char := ['<', 't', 's', '>']

/-- Matcher for `/"(created|updated|timestamp|ts|date)"\s*:\s*"[^"]+"/gi`,
replacing with `"$1":"<ts>"`. -/
def tryTs : Matcher := fun _prev c cs =>
  if c == '"' then
    match tryTsKey tsKeys cs with
    | some (keyM, rest1) =>
      match rest1.dropWhile isSpaceC with
      | ':' :: rest3 =>
        match rest3.dropWhile isSpaceC with
        | '"' :: rest5 =>
          let val := rest5.takeWhile (fun d => d != '"')
          match rest5.drop val.length with
          | '"' :: rest6 =>
            if val.length == 0 then none
            else
              some (cs.length - rest6.length,
                '"' :: keyM ++ '"' :: ':' :: '"' :: tsTok ++ ['"'])
          | _ => none
        | _ => none
      | _ => none
    | none => none
  else none

/-- `redactVolatile` from the source: the three chained global
replacements (large number runs, uuids, volatile timestamp-like
JSON pairs). -/
def redactVolatile (s : List Char) : List Char :=
  scanRepl tryTs (scanRepl tryUuid (scanRepl tryNum s))

/-- Structural (fuel-free) twin of `scanGo`, by well-founded recursion on the
string length; used for the inductive idempotence proofs. -/
def scan1 (M : Matcher) : Option Char → List Char → List Char
  | _, [] => []
  | prev, c :: cs =>
    match M prev c cs with
    | some (k, rep) => rep ++ scan1 M (some (lastD c (cs.take k))) (cs.drop k)
    | none => c :: scan1 M (some c) cs
termination_by _ s => s.length
decreasing_by
  · simp [List.length_drop]
    omega
  · simp

/-- No position of the string matches: the scan copies it unchanged. -/
def NoMatch (M : Matcher) : Option Char → List Char → Prop
  | _, [] => True
  | prev, c :: cs => M prev c cs = none ∧ NoMatch M (some c) cs

/-- Last character of a prefix, seen as the `prev` value after copying it. -/
def lastO (r : Option Char) : List Char → Option Char
  | [] => r
  | x :: xs => some (lastD x xs)

/-- The timestamp-redaction pass (third `replace` of `redactVolatile`). -/
def scanT (s : List Char) : List Char := scan1 tryTs none s

/-- Token characters of `tokenSet`: `[a-z0-9_\-]` (after lower-casing). -/
def isTokC (c : Char) : Bool :=
  ('a' ≤ c && c ≤ 'z') || isDigitC c || c == '_' || c == '-'

/-- `tokenSet` pipeline before deduplication: lower-case, replace every
non-token character with a space, split on whitespace, drop empties. -/
def tokens (s : List Char) : List (List Char) :=
  ((((s.map Char.toLower).map fun c => if isTokC c then c else ' ').splitOn ' ').filter
    fun t => !t.isEmpty)

/-- `tokenSet` from the source (a JS `Set` of token strings). -/
def tokenSet (s : List Char) : Finset (List Char) := (tokens s).toFinset

/-- `jaccard` from the source: `uni.size ? inter.size / uni.size : 0`. -/
def jaccard (a b : Finset (List Char)) : ℚ :=
  if (a ∪ b).card ≠ 0 then ((a ∩ b).card : ℚ) / ((a ∪ b).card : ℚ) else 0

/-- Fueled Levenshtein distance (unit costs), the semantics of the
`fastest-levenshtein` library's `distance`. -/
def levGo : Nat → List Char → List Char → Nat
  | _, [], ys => ys.length
  | _, _ :: xs, [] => xs.length + 1
  | 0, _ :: _, _ :: _ => 0
  | fuel + 1, x :: xs, y :: ys =>
    if x == y then levGo fuel xs ys
    else 1 + min (levGo fuel xs (y :: ys)) (min (levGo fuel (x :: xs) ys) (levGo fuel xs ys))

/-- Levenshtein distance between two strings. -/
def levenshteinDistance (a b : List Char) : Nat := levGo (a.length + b.length) a b

/-- `similarity` from the source:
`0.6 · jaccard + 0.4 · (1 − min(1, lev / max(|a|, |b|, 1)))`,
computed on the redacted strings. -/
def similarity (aRaw bRaw : List Char) : ℚ :=
  let a := redactVolatile aRaw
  let b := redactVolatile bRaw
  let j := jaccard (tokenSet a) (tokenSet b)
  let lev : ℚ :=
    1 - min 1 ((levenshteinDistance a b : ℚ) / ((max (max a.length b.length) 1 : ℕ) : ℚ))
  j * 0.6 + lev * 0.4

/-! ## Data model (`EndpointSchema`, `ScanRequestSchema`) -/

/-- The HTTP method enum of `EndpointSchema`. -/
inductive Method
  | GET | POST | PUT | PATCH | DELETE
deriving DecidableEq, Repr

/-- A path- or query-parameter definition: a name and its sample values. -/
structure ParamDef where
  name : List Char
  samples : List (List Char)
deriving DecidableEq, Repr

/-- A validated endpoint description. -/
structure Endpoint where
  method : Method
  pathTemplate : List Char
  pathParams : List ParamDef
  queryParams : Option (List ParamDef)
deriving DecidableEq, Repr

/-- A named identity: optional header map and optional cookie map. -/
structure Identity where
  headers : Option (List (List Char × List Char))
  cookies : Option (List (List Char × List Char))
deriving DecidableEq, Repr

/-- The `authContexts` bundle. -/
structure AuthContexts where
  victim : Identity
  attacker : Option Identity
  unauthenticated : Option Bool
deriving DecidableEq, Repr

/-- A validated scan request (defaults already applied).  The numeric
fields are JSON numbers, so rationals (zod `z.number()` does not force
integrality). -/
structure ScanConfig where
  baseUrl : List Char
  endpoints : List Endpoint
  authContexts : AuthContexts
  speedGateThreshold : ℚ
  maxConcurrency : ℚ
  timeoutMs : ℚ
deriving DecidableEq

/-- Truthiness of `cfg.authContexts.unauthenticated`. -/
def unauthFlag (cfg : ScanConfig) : Bool := cfg.authContexts.unauthenticated.getD false

/-! ## Template resolver and URL builder -/

/-- Matcher for `/\{(\w+)\}/g` in `applyTemplate`; the replacement is
`vars[k] ?? '{' + k + '}'`. -/
def tryTemplateVar (vars : List (List Char × List Char)) : Matcher := fun _prev c cs =>
  if c == '{' then
    let key := cs.takeWhile isWordC
    match cs.drop key.length with
    | '}' :: _ =>
      if key.isEmpty then none
      else some (key.length + 1, (vars.lookup key).getD ('{' :: key ++ ['}']))
    | _ => none
  else none

/-- `applyTemplate` from the source. -/
def applyTemplate (input : List Char) (vars : List (List Char × List Char)) : List Char :=
  scanRepl (tryTemplateVar vars) input

/-- `baseUrl.replace(/\/$/, "")`: drop one trailing slash. -/
def dropTrailingSlash (s : List Char) : List Char :=
  if s.getLast? == some '/' then s.dropLast else s

/-- `pathTmpl.replace(/^\//, "")`: drop one leading slash. -/
def dropLeadingSlash (s : List Char) : List Char :=
  match s with
  | '/' :: rest => rest
  | s => s

/-- `buildUrl` from the source, with the platform's WHATWG `new URL`
validity check abstracted as the oracle `urlOk` (the constructor throws
on an invalid URL; both call sites pass an empty query map, so the
query loop is a no-op).  An exception is modelled as `Except.error`. -/
def buildUrlE (urlOk : List Char → Bool) (baseUrl pathTmpl : List Char) :
    Except Unit (List Char) :=
  let joined := dropTrailingSlash baseUrl ++ '/' :: dropLeadingSlash pathTmpl
  if urlOk joined then .ok joined else .error ()

/-! ## Identity probe runner -/

/-- The JSON platform builtins abstracted: `parseOk t` says whether
`JSON.parse(t)` succeeds, and `canon t` is `JSON.stringify(JSON.parse(t))`
(only meaningful when `parseOk t`). -/
structure JsonOracle where
  parseOk : List Char → Bool
  canon : List Char → List Char

/-- Try the id-extraction regex `/"id"\s*:\s*"?(\w+)"?/i` at the head of
the string; returns capture group 1. -/
def tryIdAt (s : List Char) : Option (List Char) :=
  match s with
  | '"' :: rest =>
    match stripKey "id".toList rest with
    | some (_, '"' :: rest2) =>
      match rest2.dropWhile isSpaceC with
      | ':' :: rest4 =>
        let rest5 := rest4.dropWhile isSpaceC
        let rest6 := match rest5 with
          | '"' :: r => r
          | r => r
        let g := rest6.takeWhile isWordC
        if g.isEmpty then none else some g
      | _ => none
    | _ => none
  | _ => none

/-- First match of the id-extraction regex anywhere in the string
(`String.match` returns the first match). -/
def findId : List Char → Option (List Char)
  | [] => none
  | c :: cs =>
    match tryIdAt (c :: cs) with
    | some g => some g
    | none => findId cs

/-- Evidence entries (the formatted strings of the source, keeping the
data they are formatted from). -/
inductive Evid
  | simAtk (sim : ℚ)
  | vIdLeak (vid : List Char)
  | simUnauth (sim : ℚ)
deriving DecidableEq

/-- JS `String.includes`: substring test. -/
def includesSub (needle hay : List Char) : Bool :=
  match hay with
  | [] => needle.isEmpty
  | _ :: t => needle.isPrefixOf hay || includesSub needle t

/-- Attacker-vector scoring, lines 159–188 of the route: base score from
the status pair, then the best-effort ID-consistency refinement (only
when both bodies parse as JSON). -/
def attackerScoreRaw (jo : JsonOracle) (attackerId : List Char)
    (baselineStatus : Nat) (baselineText : List Char)
    (attackerStatus : Nat) (attackerText : List Char) : ℚ × List Evid :=
  if 200 ≤ baselineStatus ∧ baselineStatus < 300 then
    let sim := similarity baselineText attackerText
    let base : ℚ × List Evid :=
      if 200 ≤ attackerStatus ∧ attackerStatus < 300 then
        (0.6 + min 0.4 (sim * 0.4), [Evid.simAtk sim])
      else if attackerStatus = 401 ∨ attackerStatus = 403 then (0.05, [])
      else (0, [])
    if jo.parseOk baselineText && jo.parseOk attackerText then
      let vId := findId (jo.canon baselineText)
      let aId := findId (jo.canon attackerText)
      let s1 := if vId.isSome && aId.isSome && (vId == some attackerId) then
          base.1 - 0.1
        else base.1
      if vId.isSome && includesSub (vId.getD []) (jo.canon attackerText) then
        (s1 + 0.15, base.2 ++ [Evid.vIdLeak (vId.getD [])])
      else (s1, base.2)
    else base
  else (0, [])

/-- `score = Math.max(0, Math.min(1, score))`. -/
def clamp01 (x : ℚ) : ℚ := max 0 (min 1 x)

/-- `Number(score.toFixed(3))`. -/
def round3 (x : ℚ) : ℚ := (round (x * 1000) : ℤ) / 1000

/-- The two attack-vector labels. -/
inductive AttackVector
  | attackerViaUrlId
  | unauthRequests
deriving DecidableEq, Repr

/-- A finding (the generated uuid identifier is omitted: it is external
randomness with no behavioural content). -/
structure Finding where
  endpoint : List Char
  method : Method
  attackVector : AttackVector
  statusVictim : Nat
  statusAttacker : Nat
  confidence : ℚ
  evidence : List Evid
deriving DecidableEq

/-- The three per-endpoint network responses supplied by the target
system; `none` models a transport error or timeout (the `fetch` throw). -/
structure EpEnv where
  victim : Option (Nat × List Char)
  attacker : Option (Nat × List Char)
  unauth : Option (Nat × List Char)

/-- Identity context of an issued request. -/
inductive CtxName
  | victim | attacker | unauthenticated
deriving DecidableEq, Repr

/-- A network request issued by a probe. -/
structure Request where
  url : List Char
  method : Method
  ctx : CtxName
deriving DecidableEq

/-- One endpoint's probe task (the closure body, lines 132–229):
returns the findings it pushes and the requests it issues.  A baseline
failure abandons the probe; an attacker-fetch failure leaves status 0
and empty text; the unauthenticated probe runs only when configured and
emits only on a 2xx unauthenticated status. -/
def probeEndpoint (jo : JsonOracle) (unauth : Bool) (threshold : ℚ)
    (method : Method) (pathVictim urlVictim attackerId : List Char)
    (env : EpEnv) : List Finding × List Request :=
  match env.victim with
  | none => ([], [⟨urlVictim, method, .victim⟩])
  | some (baselineStatus, baselineText) =>
    let atk := env.attacker.getD (0, [])
    let score := clamp01 (attackerScoreRaw jo attackerId baselineStatus baselineText atk.1 atk.2).1
    let evid := (attackerScoreRaw jo attackerId baselineStatus baselineText atk.1 atk.2).2
    let f1 : List Finding :=
      if threshold ≤ score then
        [⟨pathVictim, method, .attackerViaUrlId, baselineStatus, atk.1, round3 score, evid⟩]
      else []
    let reqs1 : List Request := [⟨urlVictim, method, .victim⟩, ⟨urlVictim, method, .attacker⟩]
    if unauth then
      match env.unauth with
      | none => (f1, reqs1 ++ [⟨urlVictim, method, .unauthenticated⟩])
      | some (uStatus, uText) =>
        if 200 ≤ uStatus ∧ uStatus < 300 then
          let sim := similarity baselineText uText
          let s := 0.65 + min 0.35 (sim * 0.35)
          let f2 : List Finding :=
            if threshold ≤ s then
              [⟨pathVictim, method, .unauthRequests, baselineStatus, uStatus, round3 s,
                [Evid.simUnauth sim]⟩]
            else []
          (f1 ++ f2, reqs1 ++ [⟨urlVictim, method, .unauthenticated⟩])
        else (f1, reqs1 ++ [⟨urlVictim, method, .unauthenticated⟩])
    else (f1, reqs1)

/-! ## Concurrency scheduler (`runWithConcurrency`) -/

/-- The single-runner loop of `runWithConcurrency` with
`maxConcurrency = 1`: one worker pulls jobs by a shared index; each
job's outcome is an `Except` (a throw is `error`); it records which
indices were started and pushes successful results.  Fueled for
structural recursion. -/
def runLoop {α : Type} (jobs : List (Except Unit α)) : Nat → Nat → List Nat × List α
  | 0, _ => ([], [])
  | fuel + 1, idx =>
    if idx < jobs.length then
      let r := runLoop jobs fuel (idx + 1)
      (idx :: r.1,
        match jobs.getD idx (.error ()) with
        | .ok a => a :: r.2
        | .error _ => r.2)
    else ([], [])

/-- `runWithConcurrency` with `maxConcurrency = 1`: returns the list of
started job indices and the collected results. -/
def runWithConcurrency1 {α : Type} (jobs : List (Except Unit α)) : List Nat × List α :=
  runLoop jobs jobs.length 0

/-! ## Validation (`ScanRequestSchema.safeParse`) -/

/-- A raw (pre-validation) parameter definition; `none` models an
absent JSON field. -/
structure RawParamDef where
  name : Option (List Char)
  samples : Option (List (List Char))

/-- A raw endpoint object. -/
structure RawEndpoint where
  method : Option (List Char)
  pathTemplate : Option (List Char)
  pathParams : Option (List RawParamDef)
  queryParams : Option (List RawParamDef)

/-- A raw identity object (`.partial()`, so both fields optional and
the record values unconstrained here). -/
structure RawIdentity where
  headers : Option (List (List Char × List Char))
  cookies : Option (List (List Char × List Char))

/-- The raw `authContexts` object. -/
structure RawAuthContexts where
  victim : Option RawIdentity
  attacker : Option RawIdentity
  unauthenticated : Option Bool

/-- A raw scan request. -/
structure RawScanRequest where
  baseUrl : Option (List Char)
  endpoints : Option (List RawEndpoint)
  authContexts : Option RawAuthContexts
  speedGateThreshold : Option ℚ
  maxConcurrency : Option ℚ
  timeoutMs : Option ℚ

/-- Validation issues, one constructor per violable schema constraint,
with the array indices zod would report in the issue path. -/
inductive Issue
  | baseUrlMissing | baseUrlInvalid
  | endpointsMissing | endpointsEmpty
  | methodInvalid (i : Nat)
  | pathTemplateMissing (i : Nat)
  | paramNameMissing (i j : Nat)
  | samplesMissing (i j : Nat)
  | samplesEmpty (i j : Nat)
  | authContextsMissing | victimMissing
  | speedGateOutOfRange | maxConcurrencyOutOfRange | timeoutOutOfRange
deriving DecidableEq, Repr

/-- The method enum of the schema. -/
def methodOfName (m : List Char) : Option Method :=
  if m = "GET".toList then some .GET
  else if m = "POST".toList then some .POST
  else if m = "PUT".toList then some .PUT
  else if m = "PATCH".toList then some .PATCH
  else if m = "DELETE".toList then some .DELETE
  else none

/-- Issues of one raw parameter definition. -/
def paramIssues (i j : Nat) (p : RawParamDef) : List Issue :=
  (match p.name with
    | none => [.paramNameMissing i j]
    | some _ => []) ++
  (match p.samples with
    | none => [.samplesMissing i j]
    | some ss => if ss.isEmpty then [.samplesEmpty i j] else [])

/-- Issues of one raw endpoint. -/
def endpointIssues (i : Nat) (e : RawEndpoint) : List Issue :=
  (match e.method with
    | none => []
    | some m => if (methodOfName m).isSome then [] else [.methodInvalid i]) ++
  (match e.pathTemplate with
    | none => [.pathTemplateMissing i]
    | some _ => []) ++
  ((e.pathParams.getD []).enum.map fun p => paramIssues i p.1 p.2).flatten ++
  (match e.queryParams with
    | none => []
    | some qs => (qs.enum.map fun p => paramIssues i p.1 p.2).flatten)

/-- All issues of a raw scan request, every field checked and all
violations collected together (`safeParse` aggregates across fields). -/
def issuesOf (urlOk : List Char → Bool) (r : RawScanRequest) : List Issue :=
  (match r.baseUrl with
    | none => [.baseUrlMissing]
    | some u => if urlOk u then [] else [.baseUrlInvalid]) ++
  (match r.endpoints with
    | none => [.endpointsMissing]
    | some es =>
      (if es.isEmpty then [.endpointsEmpty] else []) ++
        (es.enum.map fun p => endpointIssues p.1 p.2).flatten) ++
  (match r.authContexts with
    | none => [.authContextsMissing]
    | some a => if a.victim.isSome then [] else [.victimMissing]) ++
  (match r.speedGateThreshold with
    | none => []
    | some q => if 0 ≤ q ∧ q ≤ 1 then [] else [.speedGateOutOfRange]) ++
  (match r.maxConcurrency with
    | none => []
    | some q => if 1 ≤ q ∧ q ≤ 12 then [] else [.maxConcurrencyOutOfRange]) ++
  (match r.timeoutMs with
    | none => []
    | some q => if 1000 ≤ q ∧ q ≤ 60000 then [] else [.timeoutOutOfRange])

/-- Extraction of the validated config with the schema defaults applied
(meaningful when there are no issues). -/
def configOf (r : RawScanRequest) : ScanConfig :=
  { baseUrl := r.baseUrl.getD []
    endpoints := (r.endpoints.getD []).map fun e =>
      { method := ((e.method.map methodOfName).getD (some .GET)).getD .GET
        pathTemplate := e.pathTemplate.getD []
        pathParams := (e.pathParams.getD []).map fun p =>
          ⟨p.name.getD [], p.samples.getD []⟩
        queryParams := e.queryParams.map fun qs => qs.map fun p =>
          ⟨p.name.getD [], p.samples.getD []⟩ }
    authContexts :=
      let a := r.authContexts.getD ⟨none, none, none⟩
      { victim :=
          let v := a.victim.getD ⟨none, none⟩
          ⟨v.headers, v.cookies⟩
        attacker := a.attacker.map fun v => ⟨v.headers, v.cookies⟩
        unauthenticated := a.unauthenticated }
    speedGateThreshold := r.speedGateThreshold.getD 0.8
    maxConcurrency := r.maxConcurrency.getD 5
    timeoutMs := r.timeoutMs.getD 8000 }

/-- `ScanRequestSchema.safeParse`. -/
def validate (urlOk : List Char → Bool) (r : RawScanRequest) :
    Except (List Issue) ScanConfig :=
  if issuesOf urlOk r = [] then .ok (configOf r) else .error (issuesOf urlOk r)

/-! ## Scan orchestrator (`POST`) -/

/-- The per-endpoint data captured by one pushed task closure. -/
structure ProbeTask where
  epIdx : Nat
  method : Method
  pathVictim : List Char
  urlVictim : List Char
  attackerId : List Char
deriving DecidableEq

/-- The task-building loop (lines 117–230): endpoints without a path
parameter are skipped (`continue`); `buildUrl` runs inside the loop
body *outside* any try/catch, so a `MalformedTarget` throw escapes the
whole loop (`Except.error`). -/
def buildTasks (urlOk : List Char → Bool) (baseUrl : List Char) :
    List (Nat × Endpoint) → Except Unit (List ProbeTask)
  | [] => .ok []
  | (i, ep) :: rest =>
    match ep.pathParams with
    | [] => buildTasks urlOk baseUrl rest
    | p :: _ =>
      let victimId := p.samples.headD []
      let attackerId := ((p.samples.get? 1).getD (p.samples.headD []))
      let pathVictim := applyTemplate ep.pathTemplate [(p.name, victimId)]
      match buildUrlE urlOk baseUrl pathVictim with
      | .error _ => .error ()
      | .ok url =>
        (buildTasks urlOk baseUrl rest).map
          (⟨i, ep.method, pathVictim, url, attackerId⟩ :: ·)

/-- The overall result of `POST`: a 400 with the flattened validation
issues, a 500 from an uncaught exception, or the findings. -/
inductive ScanResult
  | validationError (issues : List Issue)
  | serverError
  | ok (findings : List Finding)
deriving DecidableEq

/-- `POST` from the source: validate, build tasks, run them, collect
findings.  The target system's behaviour is the per-endpoint
environment `env` (indexed by endpoint position); the second component
logs every network request issued.  Findings are collected in job
order (the worker pool only permutes completion order, which the route
explicitly does not guarantee). -/
def post (urlOk : List Char → Bool) (jo : JsonOracle) (env : Nat → EpEnv)
    (r : RawScanRequest) : ScanResult × List Request :=
  match validate urlOk r with
  | .error is => (.validationError is, [])
  | .ok cfg =>
    match buildTasks urlOk cfg.baseUrl cfg.endpoints.enum with
    | .error _ => (.serverError, [])
    | .ok tasks =>
      let results := tasks.map fun t =>
        probeEndpoint jo (unauthFlag cfg) cfg.speedGateThreshold t.method
          t.pathVictim t.urlVictim t.attackerId (env t.epIdx)
      (.ok (results.map Prod.fst).flatten, (results.map Prod.snd).flatten)

/-! ## Concrete instances used in closed evaluations -/

/-- A JSON oracle agreeing with the platform on the minified JSON
bodies used in the concrete evaluations below: `JSON.parse` succeeds on
them, and `JSON.stringify ∘ JSON.parse` is the identity on minified
JSON. -/
def joMini : JsonOracle where
  parseOk s := s == "\x7b\"id\":1\x7d".toList || s == "\x7b\"id\":2\x7d".toList
  canon s := s

/-- The environment of the C3 concrete evaluation: victim baseline 200
with JSON body, attacker 403 with the same JSON body. -/
def env403 : EpEnv :=
  ⟨some (200, "\x7b\"id\":1\x7d".toList), some (403, "\x7b\"id\":1\x7d".toList), none⟩

/-- URL-validity oracle for the malformed-target evaluation: every
string is accepted except the joined URL `a:// b` (in the WHATWG parser
a space is a forbidden code point in an opaque host, so
`new URL("a:// b")` throws while `new URL("a://")` and
`new URL("a://ok")` succeed). -/
def urlOkMal : List Char → Bool := fun s => !(s == "a:// b".toList)

/-- A raw scan request with two endpoints; joining the base URL with
the second endpoint's path yields the invalid URL `a:// b`. -/
def rawMal : RawScanRequest :=
  { baseUrl := some "a://".toList
    endpoints := some
      [ { method := none, pathTemplate := some "ok".toList
          pathParams := some [⟨some "id".toList, some ["1".toList, "2".toList]⟩]
          queryParams := none },
        { method := none, pathTemplate := some " b".toList
          pathParams := some [⟨some "id".toList, some ["1".toList, "2".toList]⟩]
          queryParams := none } ]
    authContexts := some ⟨some ⟨none, none⟩, none, none⟩
    speedGateThreshold := none
    maxConcurrency := none
    timeoutMs := none }

/-- An oracle accepting every URL. -/
def urlOkAll : List Char → Bool := fun _ => true

/-- A well-formed raw scan request with two endpoints. -/
def rawTwo : RawScanRequest :=
  { baseUrl := some "http://h".toList
    endpoints := some
      [ { method := none, pathTemplate := some "a".toList
          pathParams := some [⟨some "id".toList, some ["1".toList, "2".toList]⟩]
          queryParams := none },
        { method := none, pathTemplate := some "b".toList
          pathParams := some [⟨some "id".toList, some ["1".toList, "2".toList]⟩]
          queryParams := none } ]
    authContexts := some ⟨some ⟨none, none⟩, none, none⟩
    speedGateThreshold := none
    maxConcurrency := none
    timeoutMs := none }

/-- Target environment in which the first endpoint's baseline request
fails with a transport error and the second endpoint answers 200. -/
def env5 : Nat → EpEnv := fun i =>
  if i == 0 then ⟨none, none, none⟩ else ⟨some (200, "x".toList), none, none⟩

/-- The tasks the orchestrator builds from `rawTwo`. -/
def tasks5 : List ProbeTask :=
  [⟨0, .GET, "a".toList, "http://h/a".toList, "2".toList⟩,
   ⟨1, .GET, "b".toList, "http://h/b".toList, "2".toList⟩]

/-- A raw scan request with two out-of-range numeric fields
(`speedGateThreshold = 2`, `timeoutMs = 10`). -/
def rawInvalid : RawScanRequest :=
  { baseUrl := some "http://h".toList
    endpoints := some
      [ { method := none, pathTemplate := some "a".toList
          pathParams := some [⟨some "id".toList, some ["1".toList]⟩]
          queryParams := none } ]
    authContexts := some ⟨some ⟨none, none⟩, none, none⟩
    speedGateThreshold := some 2
    maxConcurrency := none
    timeoutMs := some 10 }

/-- Environment for the unauthenticated-vector evaluation: victim
baseline 404, no attacker response, unauthenticated 200 with the same
body as the baseline. -/
def env10 : EpEnv := ⟨some (404, "x".toList), none, some (200, "x".toList)⟩

/-! ## Helper lemmas -/

theorem levGo_self : ∀ (f : Nat) (a : List Char), a.length ≤ f → levGo f a a = 0 := by
  intro f
  induction f with
  | zero =>
    intro a h
    cases a with
    | nil => rfl
    | cons x xs => simp at h
  | succ f ih =>
    intro a h
    cases a with
    | nil => rfl
    | cons x xs =>
      have hx : xs.length ≤ f := by
        simpa using Nat.le_of_succ_le_succ (by simpa using h)
      simp [levGo, ih xs hx]

theorem levenshteinDistance_self (a : List Char) : levenshteinDistance a a = 0 :=
  levGo_self _ a (Nat.le_add_right _ _)

theorem levGo_comm : ∀ (f : Nat) (a b : List Char),
    a.length + b.length ≤ f → levGo f a b = levGo f b a := by
  intro f
  induction f with
  | zero =>
    intro a b h
    cases a with
    | nil =>
      cases b with
      | nil => rfl
      | cons y ys => simp at h
    | cons x xs => simp at h
  | succ f ih =>
    intro a b h
    cases a with
    | nil =>
      cases b with
      | nil => rfl
      | cons y ys => simp [levGo]
    | cons x xs =>
      cases b with
      | nil => simp [levGo]
      | cons y ys =>
        have h1 : xs.length + (y :: ys).length ≤ f := by
          simp at h ⊢; omega
        have h2 : (x :: xs).length + ys.length ≤ f := by
          simp at h ⊢; omega
        have h3 : xs.length + ys.length ≤ f := by
          simp at h ⊢; omega
        by_cases hxy : x = y
        · subst hxy
          have hrec := ih xs ys h3
          simp [levGo, hrec]
        · have hbeq : (x == y) = false := by simpa using hxy
          have hbeq' : (y == x) = false := by simpa using (Ne.symm hxy)
          rw [show levGo (f + 1) (x :: xs) (y :: ys) =
              1 + min (levGo f xs (y :: ys)) (min (levGo f (x :: xs) ys) (levGo f xs ys)) by
            simp [levGo, hbeq]]
          rw [show levGo (f + 1) (y :: ys) (x :: xs) =
              1 + min (levGo f ys (x :: xs)) (min (levGo f (y :: ys) xs) (levGo f ys xs)) by
            simp [levGo, hbeq']]
          rw [ih xs (y :: ys) h1, ih (x :: xs) ys h2, ih xs ys h3]
          omega

theorem levenshteinDistance_comm (a b : List Char) :
    levenshteinDistance a b = levenshteinDistance b a := by
  unfold levenshteinDistance
  rw [levGo_comm _ a b le_rfl, Nat.add_comm]

theorem jaccard_comm (a b : Finset (List Char)) : jaccard a b = jaccard b a := by
  unfold jaccard
  rw [Finset.union_comm, Finset.inter_comm]

theorem jaccard_nonneg (a b : Finset (List Char)) : 0 ≤ jaccard a b := by
  unfold jaccard
  split
  · positivity
  · exact le_rfl

theorem jaccard_le_one (a b : Finset (List Char)) : jaccard a b ≤ 1 := by
  unfold jaccard
  split
  case isTrue h =>
    rw [div_le_one (by positivity)]
    exact_mod_cast Finset.card_le_card (Finset.inter_subset_union)
  case isFalse h => norm_num

theorem jaccard_self (a : Finset (List Char)) :
    jaccard a a = if a = ∅ then 0 else 1 := by
  unfold jaccard
  rw [Finset.union_self, Finset.inter_self]
  by_cases h : a = ∅
  · simp [h]
  · have hc : a.card ≠ 0 := by
      simpa [Finset.card_eq_zero] using h
    simp [h, hc, div_self (by exact_mod_cast hc : ((a.card : ℚ)) ≠ 0)]

/-- The edit-similarity term of `similarity` lies in `[0, 1]`. -/
theorem levTerm_mem (a b : List Char) :
    0 ≤ (1 - min 1 ((levenshteinDistance a b : ℚ) /
        ((max (max a.length b.length) 1 : ℕ) : ℚ))) ∧
      (1 - min 1 ((levenshteinDistance a b : ℚ) /
        ((max (max a.length b.length) 1 : ℕ) : ℚ))) ≤ 1 := by
  have hq : (0 : ℚ) ≤ (levenshteinDistance a b : ℚ) /
      ((max (max a.length b.length) 1 : ℕ) : ℚ) := by positivity
  have hle : min 1 ((levenshteinDistance a b : ℚ) /
      ((max (max a.length b.length) 1 : ℕ) : ℚ)) ≤ 1 := min_le_left _ _
  have hge : (0 : ℚ) ≤ min 1 ((levenshteinDistance a b : ℚ) /
      ((max (max a.length b.length) 1 : ℕ) : ℚ)) := le_min (by norm_num) hq
  exact ⟨by linarith, by linarith⟩

/-! ## Claim theorems -/

/-- C2 (counterexample): the empty string redacts to itself, has an
empty token set, so `similarity("","") = 0.4 ≠ 1.0` — the identity
property fails on token-free strings. -/
theorem similarity_self_empty_ne_one :
    similarity [] [] = 2 / 5 ∧ similarity ([] : List Char) [] ≠ 1 := by
  have h : redactVolatile [] = [] := rfl
  have ht : tokenSet ([] : List Char) = ∅ := by decide
  have hl : levenshteinDistance [] [] = 0 := rfl
  constructor
  · rw [similarity, h, ht, hl, jaccard]
    norm_num
  · rw [similarity, h, ht, hl, jaccard]
    norm_num

theorem similarity_self_eq (a : List Char) :
    similarity a a = if tokenSet (redactVolatile a) = ∅ then 2 / 5 else 1 := by
  simp only [similarity]
  rw [levenshteinDistance_self, jaccard_self]
  by_cases h : tokenSet (redactVolatile a) = ∅
  · simp only [h, if_true]
    norm_num
  · simp only [h, if_false]
    norm_num

theorem similarity_comm (a b : List Char) : similarity a b = similarity b a := by
  simp only [similarity]
  rw [jaccard_comm, levenshteinDistance_comm,
    max_comm (redactVolatile a).length (redactVolatile b).length]

theorem similarity_nonneg (a b : List Char) : 0 ≤ similarity a b := by
  simp only [similarity]
  have hj := jaccard_nonneg (tokenSet (redactVolatile a)) (tokenSet (redactVolatile b))
  have hl := (levTerm_mem (redactVolatile a) (redactVolatile b)).1
  nlinarith

theorem similarity_le_one (a b : List Char) : similarity a b ≤ 1 := by
  simp only [similarity]
  have hj := jaccard_le_one (tokenSet (redactVolatile a)) (tokenSet (redactVolatile b))
  have hj0 := jaccard_nonneg (tokenSet (redactVolatile a)) (tokenSet (redactVolatile b))
  have hl := (levTerm_mem (redactVolatile a) (redactVolatile b)).2
  have hl0 := (levTerm_mem (redactVolatile a) (redactVolatile b)).1
  nlinarith

/-- C2 (amended): `similarity(a, a)` equals `1` whenever the redacted
string has a non-empty token set, and `0.4` otherwise (the Jaccard term
is 0 by the empty-union convention while the edit term is still 1). -/
theorem similarity_identity_amended (a : List Char) :
    similarity a a = if tokenSet (redactVolatile a) = ∅ then 2 / 5 else 1 :=
  similarity_self_eq a

/-- C8: `similarity` is symmetric and bounded in `[0, 1]`. -/
theorem similarity_symm_bounded (a b : List Char) :
    similarity a b = similarity b a ∧ 0 ≤ similarity a b ∧ similarity a b ≤ 1 :=
  ⟨similarity_comm a b, similarity_nonneg a b, similarity_le_one a b⟩

/-- Specification of the single-worker scheduler loop. -/
theorem runLoop_spec {α : Type} (jobs : List (Except Unit α)) :
    ∀ (f idx : Nat), jobs.length - idx ≤ f →
      runLoop jobs f idx =
        (List.range' idx (jobs.length - idx),
          (jobs.drop idx).filterMap Except.toOption) := by
  intro f
  induction f with
  | zero =>
    intro idx h
    have hge : jobs.length ≤ idx := by omega
    have h0 : jobs.length - idx = 0 := by omega
    simp [runLoop, h0, List.drop_eq_nil_of_le hge]
  | succ f ih =>
    intro idx h
    by_cases hlt : idx < jobs.length
    · have hdrop : jobs.drop idx = jobs[idx] :: jobs.drop (idx + 1) :=
        List.drop_eq_getElem_cons hlt
      have hn : jobs.length - idx = (jobs.length - (idx + 1)) + 1 := by omega
      rw [show runLoop jobs (f + 1) idx =
          (if idx < jobs.length then
            (idx :: (runLoop jobs f (idx + 1)).1,
              match jobs.getD idx (.error ()) with
              | .ok a => a :: (runLoop jobs f (idx + 1)).2
              | .error _ => (runLoop jobs f (idx + 1)).2)
          else ([], [])) from rfl]
      rw [if_pos hlt, ih (idx + 1) (by omega), hn, List.range'_succ]
      rw [List.getD_eq_getElem jobs _ hlt, hdrop]
      cases h' : jobs[idx] with
      | ok a => simp [List.filterMap_cons, h', Except.toOption]
      | error e => simp [List.filterMap_cons, h', Except.toOption]
    · have h0 : jobs.length - idx = 0 := by omega
      have hge : jobs.length ≤ idx := by omega
      rw [show runLoop jobs (f + 1) idx =
          (if idx < jobs.length then
            (idx :: (runLoop jobs f (idx + 1)).1,
              match jobs.getD idx (.error ()) with
              | .ok a => a :: (runLoop jobs f (idx + 1)).2
              | .error _ => (runLoop jobs f (idx + 1)).2)
          else ([], [])) from rfl]
      rw [if_neg hlt]
      simp [h0, List.drop_eq_nil_of_le hge]

/-- C6: the scheduler with `maxConcurrency = 1` starts every job index
exactly once (the started list is `[0, …, n−1]`) and collects exactly
the successful jobs' results in order; a throwing job is skipped
without aborting or blocking the rest. -/
theorem runWithConcurrency1_spec {α : Type} (jobs : List (Except Unit α)) :
    runWithConcurrency1 jobs =
      (List.range jobs.length, jobs.filterMap Except.toOption) := by
  unfold runWithConcurrency1
  rw [runLoop_spec jobs jobs.length 0 (by omega)]
  simp [List.range_eq_range']

theorem similarity_bodies_12 :
    similarity "\x7b\"id\":1\x7d".toList "\x7b\"id\":2\x7d".toList = 11 / 20 := by
  have h1 : redactVolatile "\x7b\"id\":1\x7d".toList = "\x7b\"id\":1\x7d".toList := by decide
  have h2 : redactVolatile "\x7b\"id\":2\x7d".toList = "\x7b\"id\":2\x7d".toList := by decide
  have hu : ((tokenSet "\x7b\"id\":1\x7d".toList ∪ tokenSet "\x7b\"id\":2\x7d".toList).card) = 3 := by
    decide
  have hi : ((tokenSet "\x7b\"id\":1\x7d".toList ∩ tokenSet "\x7b\"id\":2\x7d".toList).card) = 1 := by
    decide
  have hl : levenshteinDistance "\x7b\"id\":1\x7d".toList "\x7b\"id\":2\x7d".toList = 1 := by decide
  simp only [similarity]
  rw [h1, h2, jaccard, hl, if_pos (by rw [hu]; norm_num), hu, hi]
  norm_num

theorem clamp01_le_of_le {x y : ℚ} (h : x ≤ y) (hy : 0 ≤ y) : clamp01 x ≤ y := by
  unfold clamp01
  exact max_le hy (le_trans (min_le_right _ _) h)

/-- With attacker status 403 the raw attacker-vector score is at most
0.2 = 0.05 + 0.15, whatever the bodies and the JSON oracle do. -/
theorem attacker403_raw_le (jo : JsonOracle) (attackerId bT aT : List Char) (bS : Nat) :
    (attackerScoreRaw jo attackerId bS bT 403 aT).1 ≤ 1 / 5 := by
  simp only [attackerScoreRaw]
  split_ifs <;> first | (exfalso; omega) | norm_num

/-- C1 (evaluation of the code slip): the −0.1 ID-consistency
adjustment keys on the ID extracted from the *victim's* baseline body
(`vIdStr === attackerId`), not on the attacker's.  With victim body
`{"id":1}`, attacker body `{"id":2}` and attacker sample `2`, the
attacker's extracted ID equals the attacker's own sample, yet nothing
is subtracted (score 0.82); with the two bodies swapped the code does
subtract 0.1 (score 0.72) although the attacker's extracted ID is `1`,
different from the attacker's sample. -/
theorem attackerScore_id_adjust_keys_on_victim_id :
    (attackerScoreRaw joMini "2".toList 200 "\x7b\"id\":1\x7d".toList 200 "\x7b\"id\":2\x7d".toList).1
        = 41 / 50 ∧
      (attackerScoreRaw joMini "2".toList 200 "\x7b\"id\":2\x7d".toList 200 "\x7b\"id\":1\x7d".toList).1
        = 41 / 50 - 1 / 10 := by
  constructor
  · have hfv : findId ['{', '"', 'i', 'd', '"', ':', '1', '}'] = some ['1'] := by decide
    have hfa : findId ['{', '"', 'i', 'd', '"', ':', '2', '}'] = some ['2'] := by decide
    have hinc : includesSub ['1'] ['{', '"', 'i', 'd', '"', ':', '2', '}'] = false := by decide
    have hc : ¬ ('1' : Char) = '2' := by decide
    have hp : (joMini.parseOk "\x7b\"id\":1\x7d".toList &&
        joMini.parseOk "\x7b\"id\":2\x7d".toList) = true := by decide
    simp only [attackerScoreRaw, joMini, hp, similarity_bodies_12]
    norm_num [hfv, hfa, hinc, hc]
  · have hsim : similarity "\x7b\"id\":2\x7d".toList "\x7b\"id\":1\x7d".toList = 11 / 20 := by
      rw [similarity_comm, similarity_bodies_12]
    have hfv : findId ['{', '"', 'i', 'd', '"', ':', '2', '}'] = some ['2'] := by decide
    have hfa : findId ['{', '"', 'i', 'd', '"', ':', '1', '}'] = some ['1'] := by decide
    have hinc : includesSub ['2'] ['{', '"', 'i', 'd', '"', ':', '1', '}'] = false := by decide
    have hp : (joMini.parseOk "\x7b\"id\":2\x7d".toList &&
        joMini.parseOk "\x7b\"id\":1\x7d".toList) = true := by decide
    simp only [attackerScoreRaw, joMini, hp, hsim]
    norm_num [hfv, hfa, hinc]

/-- C3 (counterexample): victim baseline 200 with body `{"id":1}` and
attacker 403 with the same JSON body: the ID-consistency refinement
still fires (+0.15 for the victim id appearing in the attacker body),
so the computed score is 0.2, not 0.05 — the score with a 403 attacker
status is not independent of the bodies. -/
theorem attacker403_score_not_constant :
    clamp01 (attackerScoreRaw joMini "2".toList 200 "\x7b\"id\":1\x7d".toList 403
        "\x7b\"id\":1\x7d".toList).1 = 1 / 5 ∧
      clamp01 (attackerScoreRaw joMini "2".toList 200 "\x7b\"id\":1\x7d".toList 403
        "\x7b\"id\":1\x7d".toList).1 ≠ 1 / 20 := by
  have hfv : findId ['{', '"', 'i', 'd', '"', ':', '1', '}'] = some ['1'] := by decide
  have hinc : includesSub ['1'] ['{', '"', 'i', 'd', '"', ':', '1', '}'] = true := by decide
  have hc : ¬ ('1' : Char) = '2' := by decide
  have hp : (joMini.parseOk "\x7b\"id\":1\x7d".toList &&
      joMini.parseOk "\x7b\"id\":1\x7d".toList) = true := by decide
  have he : clamp01 (attackerScoreRaw joMini "2".toList 200 "\x7b\"id\":1\x7d".toList 403
      "\x7b\"id\":1\x7d".toList).1 = 1 / 5 := by
    simp only [attackerScoreRaw, joMini, hp]
    norm_num [hfv, hinc, hc, clamp01]
  exact ⟨he, by rw [he]; norm_num⟩

/-- C3 (amended): with victim baseline 2xx and attacker status 403, the
clamped score is 0.05 adjusted by the ID-consistency refinement, hence
at most 0.2; in particular no attacker-vector finding is emitted at the
default threshold 0.8. -/
theorem attacker403_bounded_no_finding (jo : JsonOracle) (attackerId bT aT : List Char)
    (bS : Nat) (uflag : Bool) (method : Method) (pv uv : List Char) (env : EpEnv)
    (h2 : 200 ≤ bS ∧ bS < 300)
    (hv : env.victim = some (bS, bT)) (ha : env.attacker = some (403, aT)) :
    clamp01 (attackerScoreRaw jo attackerId bS bT 403 aT).1 ≤ 1 / 5 ∧
      (probeEndpoint jo uflag (4 / 5) method pv uv attackerId env).1.filter
        (fun f => f.attackVector == AttackVector.attackerViaUrlId) = [] := by
  have hb : clamp01 (attackerScoreRaw jo attackerId bS bT 403 aT).1 ≤ 1 / 5 :=
    clamp01_le_of_le (attacker403_raw_le jo attackerId bT aT bS) (by norm_num)
  refine ⟨hb, ?_⟩
  have hng : ¬ ((4 : ℚ) / 5 ≤ clamp01 (attackerScoreRaw jo attackerId bS bT 403 aT).1) := by
    linarith
  simp only [probeEndpoint, hv, ha, Option.getD_some]
  rw [if_neg hng]
  cases uflag with
  | false => simp
  | true =>
    cases hu : env.unauth with
    | none => simp
    | some p =>
      obtain ⟨uS, uT⟩ := p
      have hbe : (AttackVector.unauthRequests == AttackVector.attackerViaUrlId) = false := rfl
      split_ifs <;> simp [List.filter, hbe] <;> split_ifs <;> simp

/-- C3 (witness): the amended theorem applied at the concrete 403
environment. -/
theorem attacker403_bounded_no_finding_witness :
    clamp01 (attackerScoreRaw joMini "2".toList 200 "\x7b\"id\":1\x7d".toList 403
        "\x7b\"id\":1\x7d".toList).1 ≤ 1 / 5 ∧
      (probeEndpoint joMini false (4 / 5) Method.GET "p".toList "u".toList "2".toList
        env403).1.filter (fun f => f.attackVector == AttackVector.attackerViaUrlId) = [] :=
  attacker403_bounded_no_finding joMini "2".toList "\x7b\"id\":1\x7d".toList
    "\x7b\"id\":1\x7d".toList 200 false Method.GET "p".toList "u".toList env403
    (by omega) rfl rfl

theorem flatten_map_filter {α β : Type} (l : List α) (p : α → Bool) (f : α → List β)
    (h : ∀ x ∈ l, p x = false → f x = []) :
    (l.map f).flatten = ((l.filter p).map f).flatten := by
  induction l with
  | nil => rfl
  | cons a t ih =>
    have ht : ∀ x ∈ t, p x = false → f x = [] := fun x hx => h x (List.mem_cons_of_mem a hx)
    cases hp : p a with
    | true => simp [List.filter_cons, hp, ih ht]
    | false => simp [List.filter_cons, hp, h a (List.mem_cons_self a t) hp, ih ht]

theorem probeEndpoint_victim_none (jo : JsonOracle) (uflag : Bool) (th : ℚ)
    (method : Method) (pv uv aid : List Char) (env : EpEnv)
    (h : env.victim = none) :
    (probeEndpoint jo uflag th method pv uv aid env).1 = [] := by
  simp [probeEndpoint, h]

/-- C4 (counterexample): with two endpoints of which only the second
resolves to a malformed URL, the failure is not scoped to that
endpoint: `buildUrl` throws inside the task-building loop, the
exception escapes `POST`, the whole scan fails and not even the
well-formed first endpoint is probed or reported (no request is ever
issued). -/
theorem malformed_target_aborts_whole_scan :
    buildTasks urlOkMal "a://".toList (configOf rawMal).endpoints.enum = Except.error () ∧
      post urlOkMal joMini (fun _ => EpEnv.mk none none none) rawMal
        = (ScanResult.serverError, []) := by
  constructor
  · rfl
  · rfl

/-- C4 (amended): a MalformedTarget failure while building any single
endpoint's victim URL aborts the entire scan: the route answers with an
uncaught-exception result and no endpoint's probe runs, no network
request is issued and no findings are returned. -/
theorem malformed_target_amended (urlOk : List Char → Bool) (jo : JsonOracle)
    (env : Nat → EpEnv) (r : RawScanRequest) (cfg : ScanConfig)
    (hval : validate urlOk r = Except.ok cfg)
    (hb : buildTasks urlOk cfg.baseUrl cfg.endpoints.enum = Except.error ()) :
    post urlOk jo env r = (ScanResult.serverError, []) := by
  unfold post
  simp only [hval, hb]

/-- C4 (witness): the amended theorem applied to the concrete
two-endpoint request with a malformed second URL. -/
theorem malformed_target_amended_witness :
    post urlOkMal joMini (fun _ => EpEnv.mk (some (200, [])) none none) rawMal
      = (ScanResult.serverError, []) :=
  malformed_target_amended urlOkMal joMini (fun _ => EpEnv.mk (some (200, [])) none none)
    rawMal (configOf rawMal) rfl rfl

/-- C5: if an endpoint's baseline request fails with a transport error,
that endpoint contributes zero findings, no error is propagated (the
result is still `ok`), and the findings are exactly those of the
remaining endpoints' probes. -/
theorem baseline_failure_isolated (urlOk : List Char → Bool) (jo : JsonOracle)
    (env : Nat → EpEnv) (r : RawScanRequest) (cfg : ScanConfig) (tasks : List ProbeTask)
    (i : Nat)
    (hval : validate urlOk r = Except.ok cfg)
    (hb : buildTasks urlOk cfg.baseUrl cfg.endpoints.enum = Except.ok tasks)
    (hfail : (env i).victim = none) :
    (post urlOk jo env r).1 =
      ScanResult.ok
        (((tasks.filter fun t => !(t.epIdx == i)).map fun t =>
          (probeEndpoint jo (unauthFlag cfg) cfg.speedGateThreshold t.method
            t.pathVictim t.urlVictim t.attackerId (env t.epIdx)).1).flatten) := by
  unfold post
  simp only [hval, hb, List.map_map]
  congr 1
  refine flatten_map_filter tasks _ _ ?_
  intro t ht hp
  have hidx : t.epIdx = i := by
    simpa using hp
  exact probeEndpoint_victim_none _ _ _ _ _ _ _ _ (hidx ▸ hfail)

/-- C5 (witness): the isolation theorem applied to the concrete
two-endpoint scan whose first baseline request fails. -/
theorem baseline_failure_isolated_witness :
    (post urlOkAll joMini env5 rawTwo).1 =
      ScanResult.ok
        (((tasks5.filter fun t => !(t.epIdx == 0)).map fun t =>
          (probeEndpoint joMini (unauthFlag (configOf rawTwo))
            (configOf rawTwo).speedGateThreshold t.method
            t.pathVictim t.urlVictim t.attackerId (env5 t.epIdx)).1).flatten) :=
  baseline_failure_isolated urlOkAll joMini env5 rawTwo (configOf rawTwo) tasks5 0
    rfl rfl rfl

/-- C7: a structurally invalid scan request is rejected with the full
collected issue list, no probe task is built and no network request is
issued. -/
theorem invalid_request_rejected (urlOk : List Char → Bool) (jo : JsonOracle)
    (env : Nat → EpEnv) (r : RawScanRequest)
    (h : issuesOf urlOk r ≠ []) :
    post urlOk jo env r = (ScanResult.validationError (issuesOf urlOk r), []) := by
  unfold post validate
  rw [if_neg h]

/-- C7 (witness): a request with two out-of-range fields is rejected
with both issues reported together and an empty request log. -/
theorem invalid_request_rejected_witness :
    issuesOf urlOkAll rawInvalid = [Issue.speedGateOutOfRange, Issue.timeoutOutOfRange] ∧
      post urlOkAll joMini (fun _ => EpEnv.mk none none none) rawInvalid
        = (ScanResult.validationError
            [Issue.speedGateOutOfRange, Issue.timeoutOutOfRange], []) := by
  have h1 : issuesOf urlOkAll rawInvalid
      = [Issue.speedGateOutOfRange, Issue.timeoutOutOfRange] := by decide
  refine ⟨h1, ?_⟩
  have h2 := invalid_request_rejected urlOkAll joMini (fun _ => EpEnv.mk none none none)
    rawInvalid (by rw [h1]; simp)
  rw [h2, h1]

/-- C10: with the unauthenticated flag set and a responding baseline,
the unauthenticated probe is always issued; an unauthenticated-vector
finding is emitted exactly when the unauthenticated response itself is
2xx and `0.65 + min(0.35, sim·0.35)` reaches the threshold — the
victim baseline status is not consulted — and the recorded confidence
`round3(0.65 + min(0.35, sim·0.35))` always lies in `[0.65, 1]` with
no explicit clamp. -/
theorem unauth_vector_gate (jo : JsonOracle) (threshold : ℚ) (method : Method)
    (pv uv aid : List Char) (env : EpEnv) (bS uS : Nat) (bT uT : List Char)
    (hv : env.victim = some (bS, bT)) (hu : env.unauth = some (uS, uT)) :
    (⟨uv, method, CtxName.unauthenticated⟩ : Request) ∈
        (probeEndpoint jo true threshold method pv uv aid env).2 ∧
      (probeEndpoint jo true threshold method pv uv aid env).1.filter
          (fun f => f.attackVector == AttackVector.unauthRequests) =
        (if (200 ≤ uS ∧ uS < 300) ∧
            threshold ≤ 0.65 + min 0.35 (similarity bT uT * 0.35) then
          [⟨pv, method, AttackVector.unauthRequests, bS, uS,
            round3 (0.65 + min 0.35 (similarity bT uT * 0.35)),
            [Evid.simUnauth (similarity bT uT)]⟩]
        else []) ∧
      13 / 20 ≤ round3 (0.65 + min 0.35 (similarity bT uT * 0.35)) ∧
      round3 (0.65 + min 0.35 (similarity bT uT * 0.35)) ≤ 1 := by
  have hsim0 := similarity_nonneg bT uT
  have hsim1 := similarity_le_one bT uT
  have hmin0 : (0 : ℚ) ≤ min 0.35 (similarity bT uT * 0.35) :=
    le_min (by norm_num) (mul_nonneg hsim0 (by norm_num))
  have hmin1 : min 0.35 (similarity bT uT * 0.35) ≤ 0.35 := min_le_left _ _
  refine ⟨?_, ?_, ?_, ?_⟩
  · simp only [probeEndpoint, hv, hu]
    split_ifs <;> simp
  · simp only [probeEndpoint, hv, hu]
    have hb1 : ∀ (aS : Nat) (c : ℚ) (ev : List Evid),
        List.filter (fun f => f.attackVector == AttackVector.unauthRequests)
          ([⟨pv, method, AttackVector.attackerViaUrlId, bS, aS, c, ev⟩] : List Finding)
          = [] :=
      fun _ _ _ => rfl
    have hb2 : ∀ (c : ℚ) (ev : List Evid),
        List.filter (fun f => f.attackVector == AttackVector.unauthRequests)
          ([⟨pv, method, AttackVector.unauthRequests, bS, uS, c, ev⟩] : List Finding) =
          [⟨pv, method, AttackVector.unauthRequests, bS, uS, c, ev⟩] :=
      fun _ _ => rfl
    split_ifs with h1 h2 h3 <;>
      simp only [List.filter_append, List.filter_nil, hb1, hb2,
        List.nil_append, List.append_nil] <;>
      tauto
  · rw [round3]
    have h650 : (650 : ℤ) ≤ round ((0.65 + min 0.35 (similarity bT uT * 0.35)) * 1000) := by
      rw [round_eq, Int.le_floor]
      push_cast
      linarith
    have hr650 : (650 : ℚ) ≤
        ((round ((0.65 + min 0.35 (similarity bT uT * 0.35)) * 1000) : ℤ) : ℚ) := by
      exact_mod_cast h650
    linarith
  · rw [round3]
    have h1000 : round ((0.65 + min 0.35 (similarity bT uT * 0.35)) * 1000) ≤ 1000 := by
      rw [round_eq, Int.floor_le_iff]
      push_cast
      linarith
    have hr1000 : ((round ((0.65 + min 0.35 (similarity bT uT * 0.35)) * 1000) : ℤ) : ℚ)
        ≤ 1000 := by
      exact_mod_cast h1000
    linarith

theorem sim_x_self : similarity "x".toList "x".toList = 1 := by
  rw [similarity_self_eq, if_neg (by decide)]

theorem round3_one : round3 (1 : ℚ) = 1 := by
  rw [round3]
  norm_num

/-- C10 (witness): baseline 404, unauthenticated 200 with an identical
body, threshold 0.8 — the unauthenticated finding is emitted with
confidence 1 despite the non-2xx baseline. -/
theorem unauth_vector_gate_witness :
    (⟨"u".toList, Method.GET, CtxName.unauthenticated⟩ : Request) ∈
        (probeEndpoint joMini true (4 / 5) Method.GET "p".toList "u".toList "2".toList
          env10).2 ∧
      (probeEndpoint joMini true (4 / 5) Method.GET "p".toList "u".toList "2".toList
          env10).1.filter (fun f => f.attackVector == AttackVector.unauthRequests) =
        [⟨"p".toList, Method.GET, AttackVector.unauthRequests, 404, 200, 1,
          [Evid.simUnauth 1]⟩] ∧
      (13 : ℚ) / 20 ≤ 1 ∧ (1 : ℚ) ≤ 1 := by
  have h := unauth_vector_gate joMini (4 / 5) Method.GET "p".toList "u".toList "2".toList
    env10 404 200 "x".toList "x".toList rfl rfl
  rw [sim_x_self] at h
  have hmin : min (0.35 : ℚ) (1 * 0.35) = 0.35 := by norm_num
  rw [hmin] at h
  have hone : (0.65 : ℚ) + 0.35 = 1 := by norm_num
  rw [hone] at h
  rw [round3_one] at h
  obtain ⟨hmem, hfil, hlo, hhi⟩ := h
  refine ⟨hmem, ?_, by norm_num, le_rfl⟩
  rw [hfil, if_pos ⟨⟨by omega, by omega⟩, by norm_num⟩]

theorem scanGo_eq_scan1 (M : Matcher) :
    ∀ (f : Nat) (prev : Option Char) (s : List Char), s.length ≤ f →
      scanGo M f prev s = scan1 M prev s := by
  intro f
  induction f with
  | zero =>
    intro prev s h
    have : s = [] := List.length_eq_zero.mp (by omega)
    subst this
    rw [scan1]
    rfl
  | succ f ih =>
    intro prev s h
    cases s with
    | nil =>
      rw [scan1]
      rfl
    | cons c cs =>
      rw [scan1]
      cases hm : M prev c cs with
      | none =>
        simp only [scanGo, hm]
        rw [ih (some c) cs (by simpa using Nat.le_of_succ_le_succ (by simpa using h))]
      | some p =>
        obtain ⟨k, rep⟩ := p
        simp only [scanGo, hm]
        rw [ih _ (cs.drop k) (by simp [List.length_drop]; simp at h; omega)]

theorem scanRepl_eq_scan1 (M : Matcher) (s : List Char) :
    scanRepl M s = scan1 M none s :=
  scanGo_eq_scan1 M s.length none s le_rfl

theorem scan1_of_noMatch (M : Matcher) :
    ∀ (prev : Option Char) (s : List Char), NoMatch M prev s → scan1 M prev s = s := by
  intro prev s
  induction s generalizing prev with
  | nil =>
    intro _
    rw [scan1]
  | cons c cs ih =>
    intro h
    obtain ⟨h1, h2⟩ := h
    rw [scan1, h1]
    exact congrArg (c :: ·) (ih (some c) h2)

theorem toNat_ofNat_valid (n : Nat) (h : n < 0xd800) : (Char.ofNat n).toNat = n := by
  unfold Char.ofNat
  rw [dif_pos (Or.inl h)]
  unfold Char.ofNatAux Char.toNat
  show (UInt32.ofNat' n _).toNat = n
  simp [UInt32.ofNat', UInt32.toNat]

theorem toLower_toNat (c : Char) :
    (Char.toLower c).toNat =
      if 65 ≤ c.toNat ∧ c.toNat ≤ 90 then c.toNat + 32 else c.toNat := by
  unfold Char.toLower
  split
  case isTrue h =>
    rw [if_pos (by omega)]
    exact toNat_ofNat_valid _ (by omega)
  case isFalse h =>
    rw [if_neg (by omega)]

theorem char_eq_of_toNat {c d : Char} (h : c.toNat = d.toNat) : c = d := by
  apply Char.ext
  exact UInt32.ext h

theorem charLe_iff (a b : Char) : (a ≤ b) = (a.toNat ≤ b.toNat) := by
  simp [Char.le_def, UInt32.le_def, BitVec.le_def, Char.toNat, UInt32.toNat]

theorem isDigitC_iff (c : Char) : isDigitC c = true ↔ 48 ≤ c.toNat ∧ c.toNat ≤ 57 := by
  simp [isDigitC, charLe_iff]

theorem isWordC_iff (c : Char) :
    isWordC c = true ↔
      (48 ≤ c.toNat ∧ c.toNat ≤ 57) ∨ (97 ≤ c.toNat ∧ c.toNat ≤ 122) ∨
        (65 ≤ c.toNat ∧ c.toNat ≤ 90) ∨ c.toNat = 95 := by
  have h95 : (c == '_') = (c.toNat == 95) := by
    cases hb : c == '_' with
    | true =>
      rw [(by simpa using hb : c = '_')]
      rfl
    | false =>
      symm
      by_contra hc
      simp at hb hc
      exact hb (char_eq_of_toNat (by simpa using hc))
  simp [isWordC, isDigitC, charLe_iff, h95]
  omega

theorem isHexC_iff (c : Char) :
    isHexC c = true ↔
      (48 ≤ c.toNat ∧ c.toNat ≤ 57) ∨ (97 ≤ c.toNat ∧ c.toNat ≤ 102) ∨
        (65 ≤ c.toNat ∧ c.toNat ≤ 70) := by
  simp [isHexC, isDigitC, charLe_iff]
  omega

theorem lastO_cons (r : Option Char) (a : Char) (A : List Char) :
    lastO r (a :: A) = lastO (some a) A := by
  cases A <;> rfl

theorem scan1_nil (M : Matcher) (r : Option Char) : scan1 M r [] = [] := by
  rw [scan1]

theorem scan1_cons_none (M : Matcher) {r : Option Char} {c : Char} {cs : List Char}
    (h : M r c cs = none) : scan1 M r (c :: cs) = c :: scan1 M (some c) cs := by
  rw [scan1, h]

theorem scan1_cons_some (M : Matcher) {r : Option Char} {c : Char} {cs : List Char}
    {k : Nat} {rep : List Char} (h : M r c cs = some (k, rep)) :
    scan1 M r (c :: cs) = rep ++ scan1 M (some (lastD c (cs.take k))) (cs.drop k) := by
  rw [scan1, h]

theorem scan1_copy (M : Matcher) (A : List Char)
    (hA : ∀ a ∈ A, ∀ p rest, M p a rest = none) :
    ∀ (t : List Char) (r : Option Char),
      scan1 M r (A ++ t) = A ++ scan1 M (lastO r A) t := by
  induction A with
  | nil => intro t r; rfl
  | cons a A ih =>
    intro t r
    rw [List.cons_append,
      scan1_cons_none M (hA a (List.mem_cons_self a A) r (A ++ t)),
      ih (fun x hx => hA x (List.mem_cons_of_mem a hx)) t (some a), lastO_cons]
    rfl

theorem noMatch_append (M : Matcher) (A : List Char)
    (hA : ∀ a ∈ A, ∀ p rest, M p a rest = none) :
    ∀ (t : List Char) (r : Option Char),
      NoMatch M (lastO r A) t → NoMatch M r (A ++ t) := by
  induction A with
  | nil => intro t r h; exact h
  | cons a A ih =>
    intro t r h
    rw [List.cons_append]
    exact ⟨hA a (List.mem_cons_self a A) r (A ++ t),
      ih (fun x hx => hA x (List.mem_cons_of_mem a hx)) t (some a) (lastO_cons r a A ▸ h)⟩

theorem noMatch_suffix (M : Matcher) :
    ∀ (k : Nat) (c : Char) (cs : List Char) (r : Option Char),
      NoMatch M r (c :: cs) → NoMatch M (some (lastD c (cs.take k))) (cs.drop k) := by
  intro k
  induction k with
  | zero => intro c cs r h; simpa using h.2
  | succ k ih =>
    intro c cs r h
    cases cs with
    | nil => simp [NoMatch]
    | cons d ds =>
      simpa using ih d ds (some c) h.2

theorem noMatch_head_swap (M : Matcher) {p₁ p₂ : Option Char} {s : List Char}
    (h1 : NoMatch M p₁ s) (h2 : ∀ c cs', s = c :: cs' → M p₂ c cs' = none) :
    NoMatch M p₂ s := by
  cases s with
  | nil => trivial
  | cons c cs => exact ⟨h2 c cs rfl, h1.2⟩

/-! tryTs basics -/

theorem tryTs_nonquote {c : Char} (h : ¬(c = '"')) (p : Option Char) (cs : List Char) :
    tryTs p c cs = none := by
  simp [tryTs, h]

theorem scanT_prevIrrel (p q : Option Char) (s : List Char) :
    scan1 tryTs p s = scan1 tryTs q s := by
  cases s with
  | nil => rw [scan1_nil, scan1_nil]
  | cons c cs =>
    rw [scan1, scan1]
    rfl

theorem scan1_tryTs (p : Option Char) (s : List Char) : scan1 tryTs p s = scanT s :=
  scanT_prevIrrel p none s

theorem eqIC_def (k c : Char) : eqIC k c = (k.toLower == c.toLower) := rfl

theorem eqIC_ne_quote {k c : Char} (hk : ¬(k.toLower = '"')) (h : eqIC k c = true) :
    ¬(c = '"') := by
  intro hc
  subst hc
  rw [eqIC_def] at h
  exact hk (by simpa using h)

theorem stripKey_spec :
    ∀ (K s : List Char) {m r : List Char}, stripKey K s = some (m, r) →
      s = m ++ r ∧ List.Forall₂ (fun k c => eqIC k c = true) K m := by
  intro K
  induction K with
  | nil =>
    intro s m r h
    simp [stripKey] at h
    obtain ⟨h1, h2⟩ := h
    subst h1; subst h2
    exact ⟨rfl, List.Forall₂.nil⟩
  | cons k ks ih =>
    intro s m r h
    cases s with
    | nil => simp [stripKey] at h
    | cons c cs =>
      rw [stripKey] at h
      by_cases he : eqIC k c = true
      · rw [if_pos he] at h
        cases hs : stripKey ks cs with
        | none => rw [hs] at h; simp at h
        | some p =>
          obtain ⟨m', r'⟩ := p
          rw [hs] at h
          simp at h
          obtain ⟨h1, h2⟩ := h
          subst h1; subst h2
          obtain ⟨ha, hb⟩ := ih cs hs
          exact ⟨by rw [ha]; rfl, List.Forall₂.cons he hb⟩
      · rw [if_neg he] at h
        simp at h

theorem stripKey_append :
    ∀ (K m : List Char), List.Forall₂ (fun k c => eqIC k c = true) K m →
      ∀ (r : List Char), stripKey K (m ++ r) = some (m, r) := by
  intro K m h
  induction h with
  | nil => intro r; rfl
  | cons he _ ih =>
    intro r
    rename_i k c ks cs
    rw [List.cons_append, stripKey, if_pos he, ih r]
    rfl

theorem stripKey_fail_head {k c : Char} (h : eqIC k c = false) (ks s : List Char) :
    stripKey (k :: ks) (c :: s) = none := by
  rw [stripKey, if_neg (by simp [h])]

theorem stripKey_fail_second {k1 k2 c1 c2 : Char} (h1 : eqIC k1 c1 = true)
    (h2 : eqIC k2 c2 = false) (ks s : List Char) :
    stripKey (k1 :: k2 :: ks) (c1 :: c2 :: s) = none := by
  rw [stripKey, if_pos h1, stripKey, if_neg (by simp [h2])]
  rfl

theorem eqIC_lower {k c : Char} (h : eqIC k c = true) : c.toLower = k.toLower := by
  rw [eqIC_def] at h
  exact (by simpa using h : k.toLower = c.toLower).symm

theorem eqIC_of_lower {k x c : Char} (h : c.toLower = x) : eqIC k c = (k.toLower == x) := by
  rw [eqIC_def, h]

theorem tryTsKey_spec :
    ∀ (keys : List (List Char)) (s : List Char) {m r : List Char},
      tryTsKey keys s = some (m, r) →
      ∃ K ∈ keys, stripKey K s = some (m, '"' :: r) := by
  intro keys
  induction keys with
  | nil => intro s m r h; simp [tryTsKey] at h
  | cons k ks ih =>
    intro s m r h
    rw [tryTsKey] at h
    split at h
    case h_1 m' rest heq =>
      simp at h
      obtain ⟨h1, h2⟩ := h
      subst h1; subst h2
      exact ⟨k, List.mem_cons_self k ks, heq⟩
    case h_2 =>
      obtain ⟨K, hK, hs⟩ := ih s h
      exact ⟨K, List.mem_cons_of_mem k hK, hs⟩

theorem tsKeys_expand :
    tsKeys = ('c':: 'r':: 'e':: 'a':: 't':: 'e':: 'd'::[]) :: ('u':: 'p':: 'd':: 'a':: 't':: 'e':: 'd'::[]) ::
      ('t':: 'i':: 'm':: 'e':: 's':: 't':: 'a':: 'm':: 'p'::[]) :: ('t':: 's'::[]) ::
      ('d':: 'a':: 't':: 'e'::[]) :: [] := rfl

theorem tryTsKey_redo {cs keyM rest1 : List Char}
    (h : tryTsKey tsKeys cs = some (keyM, rest1)) (X : List Char) :
    tryTsKey tsKeys (keyM ++ '"' :: X) = some (keyM, X) := by
  obtain ⟨K, hK, hs⟩ := tryTsKey_spec tsKeys cs h
  have hf := (stripKey_spec K cs hs).2
  rw [tsKeys_expand] at hK
  simp only [List.mem_cons, List.not_mem_nil, or_false] at hK
  rw [tsKeys_expand]
  rcases hK with hK | hK | hK | hK | hK <;> subst hK
  · simp only [tryTsKey, stripKey_append _ _ hf]
  · have hf2 := hf
    cases hf with
    | cons he htail =>
      rename_i c0 m'
      have h0 : eqIC 'c' c0 = false := by
        rw [eqIC_of_lower (eqIC_lower he)]
        decide
      have hC : stripKey ('c':: 'r':: 'e':: 'a':: 't':: 'e':: 'd'::[]) ((c0 :: m') ++ '"' :: X)
          = none := by
        rw [List.cons_append]
        exact stripKey_fail_head h0 _ _
      simp only [tryTsKey, hC, stripKey_append _ _ hf2]
  · have hf2 := hf
    cases hf with
    | cons he htail =>
      rename_i c0 m'
      have h0 : eqIC 'c' c0 = false := by
        rw [eqIC_of_lower (eqIC_lower he)]
        decide
      have h1 : eqIC 'u' c0 = false := by
        rw [eqIC_of_lower (eqIC_lower he)]
        decide
      have hC : stripKey ('c':: 'r':: 'e':: 'a':: 't':: 'e':: 'd'::[]) ((c0 :: m') ++ '"' :: X)
          = none := by
        rw [List.cons_append]
        exact stripKey_fail_head h0 _ _
      have hU : stripKey ('u':: 'p':: 'd':: 'a':: 't':: 'e':: 'd'::[]) ((c0 :: m') ++ '"' :: X)
          = none := by
        rw [List.cons_append]
        exact stripKey_fail_head h1 _ _
      simp only [tryTsKey, hC, hU, stripKey_append _ _ hf2]
  · have hf2 := hf
    cases hf with
    | cons he htail =>
      rename_i c0 m'
      cases htail with
      | cons he1 htail1 =>
        rename_i c1 m''
        cases htail1
        have h0 : eqIC 'c' c0 = false := by
          rw [eqIC_of_lower (eqIC_lower he)]
          decide
        have h1 : eqIC 'u' c0 = false := by
          rw [eqIC_of_lower (eqIC_lower he)]
          decide
        have h2 : eqIC 'i' c1 = false := by
          rw [eqIC_of_lower (eqIC_lower he1)]
          decide
        have hC : stripKey ('c':: 'r':: 'e':: 'a':: 't':: 'e':: 'd'::[]) ((c0 :: c1 :: []) ++ '"' :: X)
            = none := by
          rw [List.cons_append]
          exact stripKey_fail_head h0 _ _
        have hU : stripKey ('u':: 'p':: 'd':: 'a':: 't':: 'e':: 'd'::[]) ((c0 :: c1 :: []) ++ '"' :: X)
            = none := by
          rw [List.cons_append]
          exact stripKey_fail_head h1 _ _
        have hT : stripKey ('t':: 'i':: 'm':: 'e':: 's':: 't':: 'a':: 'm':: 'p'::[])
            ((c0 :: c1 :: []) ++ '"' :: X) = none := by
          rw [List.cons_append, List.cons_append, List.nil_append]
          exact stripKey_fail_second he h2 _ _
        simp only [tryTsKey, hC, hU, hT, stripKey_append _ _ hf2]
  · have hf2 := hf
    cases hf with
    | cons he htail =>
      rename_i c0 m'
      have h0 : eqIC 'c' c0 = false := by
        rw [eqIC_of_lower (eqIC_lower he)]
        decide
      have h1 : eqIC 'u' c0 = false := by
        rw [eqIC_of_lower (eqIC_lower he)]
        decide
      have h2 : eqIC 't' c0 = false := by
        rw [eqIC_of_lower (eqIC_lower he)]
        decide
      have hC : stripKey ('c':: 'r':: 'e':: 'a':: 't':: 'e':: 'd'::[]) ((c0 :: m') ++ '"' :: X)
          = none := by
        rw [List.cons_append]
        exact stripKey_fail_head h0 _ _
      have hU : stripKey ('u':: 'p':: 'd':: 'a':: 't':: 'e':: 'd'::[]) ((c0 :: m') ++ '"' :: X)
          = none := by
        rw [List.cons_append]
        exact stripKey_fail_head h1 _ _
      have hT : stripKey ('t':: 'i':: 'm':: 'e':: 's':: 't':: 'a':: 'm':: 'p'::[]) ((c0 :: m') ++ '"' :: X)
          = none := by
        rw [List.cons_append]
        exact stripKey_fail_head h2 _ _
      have hT2 : stripKey ('t':: 's'::[]) ((c0 :: m') ++ '"' :: X) = none := by
        rw [List.cons_append]
        exact stripKey_fail_head h2 _ _
      simp only [tryTsKey, hC, hU, hT, hT2, stripKey_append _ _ hf2]

theorem tryTs_some_inv {p : Option Char} {c : Char} {cs : List Char} {k : Nat}
    {rep : List Char} (h : tryTs p c cs = some (k, rep)) :
    c = '"' ∧ ∃ keyM rest1 rest3 rest5 rest6,
      tryTsKey tsKeys cs = some (keyM, rest1) ∧
      rest1.dropWhile isSpaceC = ':' :: rest3 ∧
      rest3.dropWhile isSpaceC = '"' :: rest5 ∧
      rest5.drop (rest5.takeWhile (fun d => d != '"')).length = '"' :: rest6 ∧
      ¬((rest5.takeWhile (fun d => d != '"')).length = 0) ∧
      k = cs.length - rest6.length ∧
      rep = '"' :: keyM ++ '"' :: ':' :: '"' :: tsTok ++ ['"'] := by
  simp only [tryTs] at h
  by_cases hc : (c == '"') = true
  · rw [if_pos hc] at h
    refine ⟨by simpa using hc, ?_⟩
    split at h
    next keyM rest1 heq =>
      split at h
      next rest3 heq1 =>
        split at h
        next rest5 heq2 =>
          split at h
          next rest6 heq3 =>
            split at h
            next => simp at h
            next hlen =>
              simp only [Option.some.injEq, Prod.mk.injEq] at h
              exact ⟨keyM, rest1, rest3, rest5, rest6, heq, heq1, heq2, heq3,
                by simpa using hlen, h.1.symm, h.2.symm⟩
          next => simp at h
        next => simp at h
      next => simp at h
    next => simp at h
  · rw [if_neg hc] at h
    simp at h

theorem takeWhile_append_stop {p : Char → Bool} :
    ∀ (A : List Char), (∀ a ∈ A, p a = true) → ∀ {b : Char}, p b = false →
      ∀ (Y : List Char), (A ++ b :: Y).takeWhile p = A := by
  intro A
  induction A with
  | nil =>
    intro _ b hb Y
    simp [List.takeWhile, hb]
  | cons a A ih =>
    intro hA b hb Y
    rw [List.cons_append, List.takeWhile_cons, if_pos (hA a (List.mem_cons_self a A)),
      ih (fun x hx => hA x (List.mem_cons_of_mem a hx)) hb Y]

theorem dropWhile_append_all {p : Char → Bool} :
    ∀ (A : List Char), (∀ a ∈ A, p a = true) →
      ∀ (t : List Char), (A ++ t).dropWhile p = t.dropWhile p := by
  intro A
  induction A with
  | nil => intro _ t; rfl
  | cons a A ih =>
    intro hA t
    rw [List.cons_append, List.dropWhile_cons, if_pos (hA a (List.mem_cons_self a A))]
    exact ih (fun x hx => hA x (List.mem_cons_of_mem a hx)) t

theorem takeWhile_all {p : Char → Bool} :
    ∀ (s : List Char), (∀ a ∈ s, p a = true) → s.takeWhile p = s := by
  intro s
  induction s with
  | nil => intro _; rfl
  | cons a s ih =>
    intro hs
    rw [List.takeWhile_cons, if_pos (hs a (List.mem_cons_self a s)),
      ih (fun x hx => hs x (List.mem_cons_of_mem a hx))]

theorem dropWhile_head_neg {p : Char → Bool} :
    ∀ (l : List Char) {d : Char} {ds : List Char}, l.dropWhile p = d :: ds → p d = false := by
  intro l
  induction l with
  | nil => intro d ds h; simp [List.dropWhile] at h
  | cons a t ih =>
    intro d ds h
    rw [List.dropWhile_cons] at h
    by_cases hp : p a = true
    · rw [if_pos hp] at h
      exact ih h
    · rw [if_neg hp] at h
      simp at h
      rw [← h.1]
      simpa using hp

theorem tryTs_selfRedo {p : Option Char} {c : Char} {cs : List Char} {k : Nat}
    {rep : List Char} (h : tryTs p c cs = some (k, rep)) (p' : Option Char) (X : List Char) :
    ∃ repT, rep = '"' :: repT ∧
      tryTs p' '"' (repT ++ X) = some (repT.length, rep) := by
  obtain ⟨hc, keyM, rest1, rest3, rest5, rest6, hkey, hd1, hd2, hd3, hval, hk, hrep⟩ :=
    tryTs_some_inv h
  refine ⟨keyM ++ '"' :: ':' :: '"' :: tsTok ++ ['"'], by rw [hrep]; rfl, ?_⟩
  have hsplit : (keyM ++ '"' :: ':' :: '"' :: tsTok ++ ['"']) ++ X =
      keyM ++ '"' :: ':' :: '"' :: (tsTok ++ '"' :: X) := by
    simp
  rw [hsplit]
  have hkey2 := tryTsKey_redo hkey (':' :: '"' :: (tsTok ++ '"' :: X))
  simp only [tryTs, if_pos (by decide : (('"' : Char) == '"') = true), hkey2]
  have hds1 : (':' :: '"' :: (tsTok ++ '"' :: X)).dropWhile isSpaceC
      = ':' :: '"' :: (tsTok ++ '"' :: X) := by
    rw [List.dropWhile_cons, if_neg (by decide)]
  have hds2 : ('"' :: (tsTok ++ '"' :: X)).dropWhile isSpaceC
      = '"' :: (tsTok ++ '"' :: X) := by
    rw [List.dropWhile_cons, if_neg (by decide)]
  rw [hds1]
  simp only [hds2]
  have htw : (tsTok ++ '"' :: X).takeWhile (fun d => d != '"') = tsTok :=
    takeWhile_append_stop tsTok (by decide) (by decide) X
  rw [htw]
  have hdr : (tsTok ++ '"' :: X).drop tsTok.length = '"' :: X := List.drop_left tsTok _
  simp only [hdr]
  rw [if_neg (by decide)]
  simp only [Option.some.injEq, Prod.mk.injEq]
  constructor
  · simp [tsTok]
    omega
  · rw [hrep]

theorem noMatch_of_char_fail (M : Matcher) :
    ∀ (s : List Char), (∀ c ∈ s, ∀ p rest, M p c rest = none) →
      ∀ r, NoMatch M r s := by
  intro s
  induction s with
  | nil => intro _ _; trivial
  | cons c cs ih =>
    intro h r
    exact ⟨h c (List.mem_cons_self c cs) r cs,
      ih (fun x hx p rest => h x (List.mem_cons_of_mem c hx) p rest) (some c)⟩

theorem scanT_quoteFree_id {s : List Char} (h : ∀ a ∈ s, ¬(a = '"')) : scanT s = s :=
  scan1_of_noMatch tryTs none s
    (noMatch_of_char_fail tryTs s (fun c hc p rest => tryTs_nonquote (h c hc) p rest) none)

theorem tsKeys_lower : ∀ K ∈ tsKeys, ∀ k ∈ K, ¬(k.toLower = '"') := by
  decide

theorem forall2_quoteFree :
    ∀ {K m : List Char}, List.Forall₂ (fun k c => eqIC k c = true) K m →
      (∀ k ∈ K, ¬(k.toLower = '"')) → ∀ a ∈ m, ¬(a = '"') := by
  intro K m h
  induction h with
  | nil => intro _ a ha; simp at ha
  | cons he _ ih =>
    intro hK a ha
    rcases List.mem_cons.mp ha with ha | ha
    · subst ha
      exact eqIC_ne_quote (hK _ (List.mem_cons_self _ _)) he
    · exact ih (fun x hx => hK x (List.mem_cons_of_mem _ hx)) a ha

theorem tryTsKey_keyM_quoteFree {cs keyM rest1 : List Char}
    (h : tryTsKey tsKeys cs = some (keyM, rest1)) : ∀ a ∈ keyM, ¬(a = '"') := by
  obtain ⟨K, hK, hs⟩ := tryTsKey_spec tsKeys cs h
  exact forall2_quoteFree (stripKey_spec K cs hs).2 (tsKeys_lower K hK)

theorem tryTsKey_cs_eq {cs keyM rest1 : List Char}
    (h : tryTsKey tsKeys cs = some (keyM, rest1)) : cs = keyM ++ '"' :: rest1 := by
  obtain ⟨K, _, hs⟩ := tryTsKey_spec tsKeys cs h
  exact (stripKey_spec K cs hs).1

theorem forall2_head {k : Char} {ks m : List Char}
    (h : List.Forall₂ (fun k c => eqIC k c = true) (k :: ks) m) :
    ∃ c0 t, m = c0 :: t ∧ eqIC k c0 = true := by
  cases h with
  | cons he _ => exact ⟨_, _, rfl, he⟩

theorem tryTsKey_head {cs keyM rest1 : List Char}
    (h : tryTsKey tsKeys cs = some (keyM, rest1)) :
    ∃ c0 t, keyM = c0 :: t ∧
      (c0.toLower = 'c' ∨ c0.toLower = 'u' ∨ c0.toLower = 't' ∨ c0.toLower = 'd') := by
  obtain ⟨K, hK, hs⟩ := tryTsKey_spec tsKeys cs h
  have hf := (stripKey_spec K cs hs).2
  rw [tsKeys_expand] at hK
  simp only [List.mem_cons, List.not_mem_nil, or_false] at hK
  rcases hK with hK | hK | hK | hK | hK <;> subst hK <;>
    obtain ⟨c0, t, hm, he⟩ := forall2_head hf <;>
    exact ⟨c0, t, hm, by rw [eqIC_lower he]; decide⟩

theorem scanT_head_cons (r : Option Char) (c : Char) (cs : List Char) :
    ∃ t, scan1 tryTs r (c :: cs) = c :: t := by
  cases hm : tryTs r c cs with
  | none => exact ⟨scan1 tryTs (some c) cs, scan1_cons_none tryTs hm⟩
  | some p =>
    obtain ⟨k, rep⟩ := p
    obtain ⟨hc, keyM, r1, r3, r5, r6, _, _, _, _, _, _, hrep⟩ := tryTs_some_inv hm
    subst hc
    exact ⟨(keyM ++ '"' :: ':' :: '"' :: tsTok ++ ['"']) ++
      scan1 tryTs (some (lastD '"' (cs.take k))) (cs.drop k),
      by rw [scan1_cons_some tryTs hm, hrep]; rfl⟩

theorem tryTsKey_none_of_quoteFree :
    ∀ (keys : List (List Char)) (es : List Char), (∀ a ∈ es, ¬(a = '"')) →
      tryTsKey keys es = none := by
  intro keys
  induction keys with
  | nil => intro es _; rfl
  | cons K keys ih =>
    intro es hq
    rw [tryTsKey]
    cases hsk : stripKey K es with
    | none => exact ih es hq
    | some p =>
      obtain ⟨m, r⟩ := p
      cases r with
      | nil => exact ih es hq
      | cons r0 rs =>
        by_cases hr : r0 = '"'
        · subst hr
          exfalso
          have := (stripKey_spec K es hsk).1
          exact hq '"' (this ▸ List.mem_append_right m (List.mem_cons_self _ _)) rfl
        · have hne : ¬(r0 = '"') := hr
          split
          next m2 rest2 heq2 =>
            have hr0 : r0 = '"' := by
              simp only [Option.some.injEq, Prod.mk.injEq, List.cons.injEq] at heq2
              exact heq2.2.1
            exact absurd hr0 hne
          next => exact ih es hq

theorem tryTs_quoteFreeTail {es : List Char} (h : ∀ a ∈ es, ¬(a = '"'))
    (p : Option Char) : tryTs p '"' es = none := by
  simp only [tryTs, if_pos (by decide : (('"' : Char) == '"') = true),
    tryTsKey_none_of_quoteFree tsKeys es h]

theorem tryTsKeyStep_none {K : List Char} {keys : List (List Char)} {s : List Char}
    (hsk : stripKey K s = none) : tryTsKey (K :: keys) s = tryTsKey keys s := by
  rw [tryTsKey]
  split
  next m2 rest2 heq2 =>
    rw [hsk] at heq2
    simp at heq2
  next => rfl

theorem tryTsKeyStep_nil {K : List Char} {keys : List (List Char)} {s : List Char}
    {m : List Char} (hsk : stripKey K s = some (m, [])) :
    tryTsKey (K :: keys) s = tryTsKey keys s := by
  rw [tryTsKey]
  split
  next m2 rest2 heq2 =>
    rw [hsk] at heq2
    simp at heq2
  next => rfl

theorem tryTsKeyStep_ne {K : List Char} {keys : List (List Char)} {s : List Char}
    {m : List Char} {r0 : Char} {rs : List Char}
    (hsk : stripKey K s = some (m, r0 :: rs)) (hr : ¬(r0 = '"')) :
    tryTsKey (K :: keys) s = tryTsKey keys s := by
  rw [tryTsKey]
  split
  next m2 rest2 heq2 =>
    rw [hsk] at heq2
    simp only [Option.some.injEq, Prod.mk.injEq, List.cons.injEq] at heq2
    exact absurd heq2.2.1 hr
  next => rfl

theorem tryTsKeyStep_quote {K : List Char} {keys : List (List Char)} {s : List Char}
    {m rest : List Char} (hsk : stripKey K s = some (m, '"' :: rest)) :
    tryTsKey (K :: keys) s = some (m, rest) := by
  rw [tryTsKey]
  split
  next m2 rest2 heq2 =>
    rw [hsk] at heq2
    simp only [Option.some.injEq, Prod.mk.injEq, List.cons.injEq] at heq2
    rw [heq2.1, heq2.2.2]
  next hno =>
    exact absurd hsk (hno m rest)

theorem scanT_nil : scanT [] = [] := scan1_nil tryTs none

theorem scanT_cons_ne {c : Char} (h : ¬(c = '"')) (cs : List Char) :
    scanT (c :: cs) = c :: scanT cs := by
  unfold scanT
  rw [scan1_cons_none tryTs (tryTs_nonquote h none cs), scan1_tryTs]
  rfl

theorem head?_scanT (s : List Char) : (scanT s).head? = s.head? := by
  cases s with
  | nil => rw [scanT_nil]
  | cons c cs =>
    obtain ⟨t, ht⟩ := scanT_head_cons none c cs
    unfold scanT
    rw [ht]
    rfl

theorem stripKey_none_stable :
    ∀ (K : List Char), (∀ k ∈ K, ¬(k.toLower = '"')) →
      ∀ (cs : List Char), stripKey K cs = none → stripKey K (scanT cs) = none := by
  intro K
  induction K with
  | nil =>
    intro _ cs h
    simp [stripKey] at h
  | cons k ks ih =>
    intro hK cs h
    cases cs with
    | nil =>
      rw [scanT_nil]
      exact h
    | cons c cs' =>
      by_cases he : eqIC k c = true
      · have hc : ¬(c = '"') := eqIC_ne_quote (hK k (List.mem_cons_self k ks)) he
        rw [scanT_cons_ne hc]
        rw [stripKey, if_pos he] at h ⊢
        cases hs : stripKey ks cs' with
        | none =>
          rw [ih (fun x hx => hK x (List.mem_cons_of_mem k hx)) cs' hs]
          rfl
        | some p =>
          rw [hs] at h
          simp at h
      · obtain ⟨t, ht⟩ := scanT_head_cons none c cs'
        unfold scanT
        rw [ht, stripKey, if_neg he]

theorem stripKey_some_stable {K : List Char} (hK : ∀ k ∈ K, ¬(k.toLower = '"'))
    {cs m r : List Char} (h : stripKey K cs = some (m, r)) :
    stripKey K (scanT cs) = some (m, scanT r) := by
  obtain ⟨hcs, hf⟩ := stripKey_spec K cs h
  have hqf : ∀ a ∈ m, ¬(a = '"') := forall2_quoteFree hf hK
  have hsc : scanT cs = m ++ scanT r := by
    rw [hcs]
    unfold scanT
    rw [scan1_copy tryTs m (fun a ha p rest => tryTs_nonquote (hqf a ha) p rest) r none,
      scan1_tryTs]
    rfl
  rw [hsc]
  exact stripKey_append K m hf (scanT r)

theorem tryTsKey_none_stable :
    ∀ (keys : List (List Char)), (∀ K ∈ keys, ∀ k ∈ K, ¬(k.toLower = '"')) →
      ∀ (cs : List Char), tryTsKey keys cs = none → tryTsKey keys (scanT cs) = none := by
  intro keys
  induction keys with
  | nil => intro _ cs _; rfl
  | cons K keys ih =>
    intro hks cs h
    have hK : ∀ k ∈ K, ¬(k.toLower = '"') := hks K (List.mem_cons_self K keys)
    have hks' : ∀ K' ∈ keys, ∀ k ∈ K', ¬(k.toLower = '"') :=
      fun K' hK' => hks K' (List.mem_cons_of_mem K hK')
    cases hsk : stripKey K cs with
    | none =>
      rw [tryTsKeyStep_none hsk] at h
      rw [tryTsKeyStep_none (stripKey_none_stable K hK cs hsk)]
      exact ih hks' cs h
    | some p =>
      obtain ⟨m, r⟩ := p
      cases r with
      | nil =>
        rw [tryTsKeyStep_nil hsk] at h
        have hst := stripKey_some_stable hK hsk
        rw [scanT_nil] at hst
        rw [tryTsKeyStep_nil hst]
        exact ih hks' cs h
      | cons r0 rs =>
        by_cases hr : r0 = '"'
        · subst hr
          rw [tryTsKeyStep_quote hsk] at h
          simp at h
        · rw [tryTsKeyStep_ne hsk hr] at h
          have hst := stripKey_some_stable hK hsk
          obtain ⟨t, ht⟩ := scanT_head_cons none r0 rs
          rw [show scanT (r0 :: rs) = r0 :: t from ht] at hst
          rw [tryTsKeyStep_ne hst hr]
          exact ih hks' cs h

theorem isSpaceC_not_quote {a : Char} (h : isSpaceC a = true) : ¬(a = '"') := by
  intro he
  subst he
  simp [isSpaceC] at h

theorem tryTs_keyFail {s : List Char} (h : tryTsKey tsKeys s = none) (p : Option Char) :
    tryTs p '"' s = none := by
  simp only [tryTs, if_pos (by decide : (('"' : Char) == '"') = true), h]

theorem tryTs_wsNil {s m r1 : List Char} (hkey : tryTsKey tsKeys s = some (m, r1))
    (hd : r1.dropWhile isSpaceC = []) (p : Option Char) : tryTs p '"' s = none := by
  simp only [tryTs, if_pos (by decide : (('"' : Char) == '"') = true), hkey, hd]

theorem tryTs_noColon {s m r1 w : List Char} {c1 : Char}
    (hkey : tryTsKey tsKeys s = some (m, r1))
    (hd : r1.dropWhile isSpaceC = c1 :: w) (hc : ¬(c1 = ':')) (p : Option Char) :
    tryTs p '"' s = none := by
  simp only [tryTs, if_pos (by decide : (('"' : Char) == '"') = true), hkey, hd]
  split
  next r3 heq =>
    simp only [List.cons.injEq] at heq
    exact absurd heq.1 hc
  next => rfl

theorem tryTs_noOpenNil {s m r1 r3 : List Char}
    (hkey : tryTsKey tsKeys s = some (m, r1))
    (hd1 : r1.dropWhile isSpaceC = ':' :: r3)
    (hd2 : r3.dropWhile isSpaceC = []) (p : Option Char) : tryTs p '"' s = none := by
  simp only [tryTs, if_pos (by decide : (('"' : Char) == '"') = true), hkey, hd1, hd2]

theorem tryTs_noOpen {s m r1 r3 w : List Char} {c2 : Char}
    (hkey : tryTsKey tsKeys s = some (m, r1))
    (hd1 : r1.dropWhile isSpaceC = ':' :: r3)
    (hd2 : r3.dropWhile isSpaceC = c2 :: w) (hc : ¬(c2 = '"')) (p : Option Char) :
    tryTs p '"' s = none := by
  simp only [tryTs, if_pos (by decide : (('"' : Char) == '"') = true), hkey, hd1, hd2]
  split
  next r5 heq =>
    simp only [List.cons.injEq] at heq
    exact absurd heq.1 hc
  next => rfl

theorem tryTs_noClose {s m r1 r3 r5 : List Char}
    (hkey : tryTsKey tsKeys s = some (m, r1))
    (hd1 : r1.dropWhile isSpaceC = ':' :: r3)
    (hd2 : r3.dropWhile isSpaceC = '"' :: r5)
    (hd3 : r5.drop (r5.takeWhile (fun d => d != '"')).length = []) (p : Option Char) :
    tryTs p '"' s = none := by
  simp only [tryTs, if_pos (by decide : (('"' : Char) == '"') = true), hkey, hd1, hd2, hd3]

theorem tryTs_emptyVal {s m r1 r3 r5 r6 : List Char}
    (hkey : tryTsKey tsKeys s = some (m, r1))
    (hd1 : r1.dropWhile isSpaceC = ':' :: r3)
    (hd2 : r3.dropWhile isSpaceC = '"' :: r5)
    (hd3 : r5.drop (r5.takeWhile (fun d => d != '"')).length = '"' :: r6)
    (hlen : (r5.takeWhile (fun d => d != '"')).length = 0) (p : Option Char) :
    tryTs p '"' s = none := by
  simp only [tryTs, if_pos (by decide : (('"' : Char) == '"') = true), hkey, hd1, hd2, hd3]
  rw [if_pos (by simpa using hlen)]

theorem tryTsKey_quote_head :
    ∀ (keys : List (List Char)),
      (∀ K ∈ keys, ¬(K = []) ∧ eqIC (K.headD 'x') '"' = false) →
      ∀ (t : List Char), tryTsKey keys ('"' :: t) = none := by
  intro keys
  induction keys with
  | nil => intro _ t; rfl
  | cons K keys ih =>
    intro hks t
    obtain ⟨hne, hh⟩ := hks K (List.mem_cons_self K keys)
    cases K with
    | nil => exact absurd rfl hne
    | cons k0 ks =>
      rw [tryTsKeyStep_none (stripKey_fail_head (by simpa using hh) ks t)]
      exact ih (fun K' hK' => hks K' (List.mem_cons_of_mem _ hK')) t

theorem tsKeys_quote_head (t : List Char) : tryTsKey tsKeys ('"' :: t) = none :=
  tryTsKey_quote_head tsKeys (by decide) t

theorem scanT_append_space {s : List Char} :
    scanT s = s.takeWhile isSpaceC ++ scan1 tryTs (lastO none (s.takeWhile isSpaceC))
      (s.dropWhile isSpaceC) := by
  conv_lhs => rw [show s = s.takeWhile isSpaceC ++ s.dropWhile isSpaceC from
    (List.takeWhile_append_dropWhile isSpaceC s).symm]
  unfold scanT
  exact scan1_copy tryTs _
    (fun a ha p rest => tryTs_nonquote (isSpaceC_not_quote (List.mem_takeWhile_imp ha)) p rest)
    _ none

theorem scanT_dropWhile_nil {s : List Char} (h : s.dropWhile isSpaceC = []) :
    (scanT s).dropWhile isSpaceC = [] := by
  have hall : ∀ a ∈ s, isSpaceC a = true := List.dropWhile_eq_nil_iff.mp h
  rw [scanT_quoteFree_id (fun a ha => isSpaceC_not_quote (hall a ha))]
  exact h

theorem scanT_dropWhile_ne {s w : List Char} {c1 : Char}
    (h : s.dropWhile isSpaceC = c1 :: w) (hc : ¬(c1 = '"')) :
    (scanT s).dropWhile isSpaceC = c1 :: scanT w := by
  rw [scanT_append_space, h,
    dropWhile_append_all _ (fun a ha => List.mem_takeWhile_imp ha),
    scan1_cons_none tryTs (tryTs_nonquote hc _ w), scan1_tryTs,
    List.dropWhile_cons, if_neg (by simp [dropWhile_head_neg s h])]

theorem scanT_dropWhile_quote {s w : List Char}
    (h : s.dropWhile isSpaceC = '"' :: w) :
    ∃ t, (scanT s).dropWhile isSpaceC = '"' :: t := by
  obtain ⟨t, ht⟩ := scanT_head_cons (lastO none (s.takeWhile isSpaceC)) '"' w
  refine ⟨t, ?_⟩
  rw [scanT_append_space, h,
    dropWhile_append_all _ (fun a ha => List.mem_takeWhile_imp ha), ht,
    List.dropWhile_cons, if_neg (by decide)]

theorem cons_of_head_quote {l : List Char} (h : l.head? = some '"') :
    ∃ t, l = '"' :: t := by
  cases l with
  | nil => simp at h
  | cons a t =>
    refine ⟨t, ?_⟩
    simp only [List.head?_cons, Option.some.injEq] at h
    rw [h]

theorem tryTsKey_some_stable :
    ∀ (keys : List (List Char)), (∀ K ∈ keys, ∀ k ∈ K, ¬(k.toLower = '"')) →
      ∀ {cs m r1 : List Char}, tryTsKey keys cs = some (m, r1) →
        ∃ X, scanT ('"' :: r1) = '"' :: X ∧ tryTsKey keys (scanT cs) = some (m, X) := by
  intro keys
  induction keys with
  | nil => intro _ cs m r1 h; simp [tryTsKey] at h
  | cons K keys ih =>
    intro hks cs m r1 h
    have hK : ∀ k ∈ K, ¬(k.toLower = '"') := hks K (List.mem_cons_self K keys)
    have hks' : ∀ K' ∈ keys, ∀ k ∈ K', ¬(k.toLower = '"') :=
      fun K' hK' => hks K' (List.mem_cons_of_mem K hK')
    cases hsk : stripKey K cs with
    | none =>
      rw [tryTsKeyStep_none hsk] at h
      obtain ⟨X, hX, hres⟩ := ih hks' h
      exact ⟨X, hX, by
        rw [tryTsKeyStep_none (stripKey_none_stable K hK cs hsk)]
        exact hres⟩
    | some pq =>
      obtain ⟨m', r'⟩ := pq
      cases r' with
      | nil =>
        rw [tryTsKeyStep_nil hsk] at h
        obtain ⟨X, hX, hres⟩ := ih hks' h
        refine ⟨X, hX, ?_⟩
        have hst := stripKey_some_stable hK hsk
        rw [scanT_nil] at hst
        rw [tryTsKeyStep_nil hst]
        exact hres
      | cons r0 rs =>
        by_cases hr : r0 = '"'
        · subst hr
          rw [tryTsKeyStep_quote hsk] at h
          simp only [Option.some.injEq, Prod.mk.injEq] at h
          obtain ⟨hm, hrs⟩ := h
          have hst := stripKey_some_stable hK hsk
          obtain ⟨X, hX⟩ := cons_of_head_quote
            (by rw [head?_scanT]; rfl : (scanT ('"' :: rs)).head? = some '"')
          rw [hX] at hst
          refine ⟨X, by rw [← hrs]; exact hX, ?_⟩
          rw [tryTsKeyStep_quote hst, hm]
        · rw [tryTsKeyStep_ne hsk hr] at h
          obtain ⟨X, hX, hres⟩ := ih hks' h
          refine ⟨X, hX, ?_⟩
          have hst := stripKey_some_stable hK hsk
          obtain ⟨t, ht⟩ := scanT_head_cons none r0 rs
          rw [show scanT (r0 :: rs) = r0 :: t from ht] at hst
          rw [tryTsKeyStep_ne hst hr]
          exact hres

theorem headLetter_facts {c0 : Char}
    (h : c0.toLower = 'c' ∨ c0.toLower = 'u' ∨ c0.toLower = 't' ∨ c0.toLower = 'd') :
    isSpaceC c0 = false ∧ ¬(c0 = ':') := by
  have hn : c0.toNat = 67 ∨ c0.toNat = 99 ∨ c0.toNat = 85 ∨ c0.toNat = 117 ∨
      c0.toNat = 84 ∨ c0.toNat = 116 ∨ c0.toNat = 68 ∨ c0.toNat = 100 := by
    have ht := toLower_toNat c0
    rcases h with h | h | h | h <;> rw [h] at ht <;>
      simp only [show ('c' : Char).toNat = 99 from rfl, show ('u' : Char).toNat = 117 from rfl,
        show ('t' : Char).toNat = 116 from rfl, show ('d' : Char).toNat = 100 from rfl] at ht <;>
      [skip; skip; skip; skip] <;> split at ht <;> omega
  have hc : c0 = Char.ofNat c0.toNat :=
    char_eq_of_toNat (toNat_ofNat_valid c0.toNat (by omega)).symm
  rcases hn with hn | hn | hn | hn | hn | hn | hn | hn <;> rw [hn] at hc <;> rw [hc] <;>
    exact (by decide)

theorem drop_takeWhile_length {p : Char → Bool} (l : List Char) :
    l.drop (l.takeWhile p).length = l.dropWhile p := by
  have h := List.drop_left (l.takeWhile p) (l.dropWhile p)
  rw [List.takeWhile_append_dropWhile] at h
  exact h

theorem scanT_dropWhile_quote_ne {s w : List Char}
    (h : s.dropWhile isSpaceC = '"' :: w) (hm : tryTs none '"' w = none) :
    (scanT s).dropWhile isSpaceC = '"' :: scanT w := by
  have hm' : tryTs (lastO none (s.takeWhile isSpaceC)) '"' w = none := hm
  rw [scanT_append_space, h,
    dropWhile_append_all _ (fun a ha => List.mem_takeWhile_imp ha),
    scan1_cons_none tryTs hm', scan1_tryTs,
    List.dropWhile_cons, if_neg (by decide)]

theorem tryTs_build_some {s m r1 r3 r5 r6 : List Char}
    (hkey : tryTsKey tsKeys s = some (m, r1))
    (hd1 : r1.dropWhile isSpaceC = ':' :: r3)
    (hd2 : r3.dropWhile isSpaceC = '"' :: r5)
    (hd3 : r5.drop (r5.takeWhile (fun d => d != '"')).length = '"' :: r6)
    (hlen : ¬((r5.takeWhile (fun d => d != '"')).length = 0)) (p : Option Char) :
    tryTs p '"' s =
      some (s.length - r6.length, '"' :: m ++ '"' :: ':' :: '"' :: tsTok ++ ['"']) := by
  simp only [tryTs, if_pos (by decide : (('"' : Char) == '"') = true), hkey, hd1, hd2, hd3]
  rw [if_neg (by simpa using hlen)]

theorem tryTs_noCreate {p : Option Char} {c : Char} {cs : List Char}
    (h : tryTs p c cs = none) (p' : Option Char) : tryTs p' c (scanT cs) = none := by
  by_cases hc : c = '"'
  · subst hc
    cases hkey : tryTsKey tsKeys cs with
    | none => exact tryTs_keyFail (tryTsKey_none_stable tsKeys tsKeys_lower cs hkey) p'
    | some pr =>
      obtain ⟨keyM, rest1⟩ := pr
      obtain ⟨X, hX, hkey'⟩ := tryTsKey_some_stable tsKeys tsKeys_lower hkey
      cases hm : tryTs none '"' rest1 with
      | some pk =>
        obtain ⟨k, rep⟩ := pk
        obtain ⟨-, keyM2, r1', r3', r5', r6', hkey2, -, -, -, -, -, hrep⟩ :=
          tryTs_some_inv hm
        have hsc : scanT ('"' :: rest1) =
            rep ++ scan1 tryTs (some (lastD '"' (rest1.take k))) (rest1.drop k) := by
          unfold scanT
          exact scan1_cons_some tryTs hm
        rw [hsc, hrep] at hX
        obtain ⟨c0, t0, hkm2, hlet⟩ := tryTsKey_head hkey2
        obtain ⟨hsp0, hcol0⟩ := headLetter_facts hlet
        rw [hkm2] at hX
        simp only [List.cons_append, List.append_assoc, List.singleton_append,
          List.cons.injEq, true_and] at hX
        obtain ⟨T, hT⟩ : ∃ T, X = c0 :: T := ⟨_, hX.symm⟩
        have hd : X.dropWhile isSpaceC = c0 :: T := by
          rw [hT, List.dropWhile_cons, if_neg (by simp [hsp0])]
        exact tryTs_noColon hkey' hd hcol0 p'
      | none =>
        have hXn : scanT ('"' :: rest1) = '"' :: scanT rest1 := by
          unfold scanT
          rw [scan1_cons_none tryTs hm, scan1_tryTs]
          rfl
        rw [hXn] at hX
        simp only [List.cons.injEq, true_and] at hX
        rw [← hX] at hkey'
        cases hd1 : rest1.dropWhile isSpaceC with
        | nil => exact tryTs_wsNil hkey' (scanT_dropWhile_nil hd1) p'
        | cons c1 w1 =>
          by_cases hc1 : c1 = ':'
          · subst hc1
            have hd1' : (scanT rest1).dropWhile isSpaceC = ':' :: scanT w1 :=
              scanT_dropWhile_ne hd1 (by decide)
            cases hd2 : w1.dropWhile isSpaceC with
            | nil => exact tryTs_noOpenNil hkey' hd1' (scanT_dropWhile_nil hd2) p'
            | cons c2 w2 =>
              by_cases hc2 : c2 = '"'
              · subst hc2
                cases hd3 : w2.dropWhile (fun d => d != '"') with
                | nil =>
                  have hqf : ∀ a ∈ w2, ¬(a = '"') := by
                    intro a ha
                    have := List.dropWhile_eq_nil_iff.mp hd3 a ha
                    simpa using this
                  have hm2 : tryTs none '"' w2 = none := tryTs_quoteFreeTail hqf none
                  have hd2' : (scanT w1).dropWhile isSpaceC = '"' :: scanT w2 :=
                    scanT_dropWhile_quote_ne hd2 hm2
                  rw [scanT_quoteFree_id hqf] at hd2'
                  have hd3' : w2.drop (w2.takeWhile (fun d => d != '"')).length = [] := by
                    rw [drop_takeWhile_length, hd3]
                  exact tryTs_noClose hkey' hd1' hd2' hd3' p'
                | cons d ds =>
                  have hdq : d = '"' := by
                    have := dropWhile_head_neg w2 hd3
                    simpa using this
                  subst hdq
                  have hd3' : w2.drop (w2.takeWhile (fun d => d != '"')).length
                      = '"' :: ds := by
                    rw [drop_takeWhile_length, hd3]
                  by_cases hlen : (w2.takeWhile (fun d => d != '"')).length = 0
                  · have hw2 : ∃ w2t, w2 = '"' :: w2t := by
                      have hnil := List.length_eq_zero.mp hlen
                      cases w2 with
                      | nil => simp at hd3
                      | cons d0 w2t =>
                        rw [List.takeWhile_cons] at hnil
                        by_cases hd0 : (d0 != '"') = true
                        · rw [if_pos hd0] at hnil
                          simp at hnil
                        · have hd0q : d0 = '"' := by simpa using hd0
                          exact ⟨w2t, by rw [hd0q]⟩
                    obtain ⟨w2t, hw2t⟩ := hw2
                    have hm2 : tryTs none '"' w2 = none := by
                      rw [hw2t]
                      exact tryTs_keyFail (tsKeys_quote_head w2t) none
                    have hd2' : (scanT w1).dropWhile isSpaceC = '"' :: scanT w2 :=
                      scanT_dropWhile_quote_ne hd2 hm2
                    obtain ⟨Y, hY⟩ := cons_of_head_quote
                      (by rw [head?_scanT, hw2t]; rfl : (scanT w2).head? = some '"')
                    rw [hY] at hd2'
                    have htw : (('"' :: Y).takeWhile (fun d => d != '"')) = [] := by
                      rw [List.takeWhile_cons, if_neg (by decide)]
                    exact tryTs_emptyVal hkey' hd1' hd2'
                      (by rw [htw]; rfl) (by rw [htw]; rfl) p'
                  · exfalso
                    rw [tryTs_build_some hkey hd1 hd2 hd3' hlen p] at h
                    simp at h
              · have hd2' : (scanT w1).dropWhile isSpaceC = c2 :: scanT w2 :=
                  scanT_dropWhile_ne hd2 hc2
                exact tryTs_noOpen hkey' hd1' hd2' hc2 p'
          · by_cases hq : c1 = '"'
            · subst hq
              obtain ⟨t, ht⟩ := scanT_dropWhile_quote hd1
              exact tryTs_noColon hkey' ht hc1 p'
            · exact tryTs_noColon hkey' (scanT_dropWhile_ne hd1 hq) hc1 p'
  · exact tryTs_nonquote hc p' (scanT cs)

theorem scanT_idem_aux :
    ∀ (n : Nat) (s : List Char), s.length ≤ n → scanT (scanT s) = scanT s := by
  intro n
  induction n with
  | zero =>
    intro s hs
    rw [List.length_eq_zero.mp (Nat.le_zero.mp hs), scanT_nil, scanT_nil]
  | succ n ih =>
    intro s hs
    cases s with
    | nil => rw [scanT_nil, scanT_nil]
    | cons c cs =>
      have hcs : cs.length ≤ n := by
        simp only [List.length_cons] at hs
        omega
      cases hm : tryTs none c cs with
      | none =>
        have h1 : scanT (c :: cs) = c :: scanT cs := by
          have hstep := scan1_cons_none tryTs hm
          simp only [scan1_tryTs] at hstep
          exact hstep
        have hm' : tryTs none c (scanT cs) = none := tryTs_noCreate hm none
        have h2 : scanT (c :: scanT cs) = c :: scanT (scanT cs) := by
          have hstep := scan1_cons_none tryTs hm'
          simp only [scan1_tryTs] at hstep
          exact hstep
        rw [h1, h2, ih cs hcs]
      | some pk =>
        obtain ⟨k, rep⟩ := pk
        have hceq : c = '"' := (tryTs_some_inv hm).1
        subst hceq
        have h1 : scanT ('"' :: cs) = rep ++ scanT (cs.drop k) := by
          have hstep := scan1_cons_some tryTs hm
          simp only [scan1_tryTs] at hstep
          exact hstep
        obtain ⟨repT, hrepT, hredo⟩ := tryTs_selfRedo hm none (scanT (cs.drop k))
        rw [h1, hrepT]
        have hcons : ('"' :: repT) ++ scanT (cs.drop k)
            = '"' :: (repT ++ scanT (cs.drop k)) := rfl
        rw [hcons]
        have h2 : scanT ('"' :: (repT ++ scanT (cs.drop k)))
            = rep ++ scanT (scanT (cs.drop k)) := by
          have hstep := scan1_cons_some tryTs hredo
          rw [List.drop_left] at hstep
          simp only [scan1_tryTs] at hstep
          exact hstep
        rw [h2, ih (cs.drop k) (by rw [List.length_drop]; omega), hrepT]
        exact hcons

/-! num layer -/

theorem tryNum_eq (p : Option Char) (c : Char) (cs : List Char) :
    tryNum p c cs =
      if boundaryOk p && isDigitC c then
        if 13 ≤ (cs.takeWhile isDigitC).length + 1 &&
            afterOk (cs.drop (cs.takeWhile isDigitC).length) then
          some ((cs.takeWhile isDigitC).length, numTok)
        else none
      else none := rfl

theorem tryNum_nonDigit {c : Char} (h : isDigitC c = false) (p : Option Char)
    (cs : List Char) : tryNum p c cs = none := by
  rw [tryNum_eq, if_neg (by simp [h])]

theorem tryNum_word_prev {pc : Char} (h : isWordC pc = true) (c : Char) (cs : List Char) :
    tryNum (some pc) c cs = none := by
  rw [tryNum_eq, if_neg (by simp [boundaryOk, h])]

theorem isDigitC_word {c : Char} (h : isDigitC c = true) : isWordC c = true := by
  simp [isWordC, h]

theorem afterOk_congr {X Y : List Char} (h : X.head? = Y.head?) : afterOk X = afterOk Y := by
  cases X with
  | nil =>
    cases Y with
    | nil => rfl
    | cons y ys => simp at h
  | cons x xs =>
    cases Y with
    | nil => simp at h
    | cons y ys =>
      simp only [List.head?_cons, Option.some.injEq] at h
      rw [h]
      rfl

theorem takeWhile_imp_split {p q : Char → Bool} (hpq : ∀ a, p a = true → q a = true) :
    ∀ (l : List Char),
      l.takeWhile q = l.takeWhile p ++ (l.dropWhile p).takeWhile q ∧
        l.dropWhile q = (l.dropWhile p).dropWhile q := by
  intro l
  induction l with
  | nil => exact ⟨rfl, rfl⟩
  | cons a l ih =>
    by_cases hpa : p a = true
    · have hqa := hpq a hpa
      simp only [List.takeWhile_cons, List.dropWhile_cons, hpa, hqa, if_true,
        List.cons_append]
      exact ⟨by rw [ih.1], ih.2⟩
    · simp only [List.takeWhile_cons (p := p), List.dropWhile_cons (p := p), hpa,
        if_false, Bool.false_eq_true, List.nil_append]
      exact ⟨by trivial, by trivial⟩

theorem scanB_word_copy (M : Matcher)
    (hB : ∀ (pc : Char) (c : Char) (cs : List Char), isWordC pc = true →
      M (some pc) c cs = none) :
    ∀ (cs : List Char) (c : Char), isWordC c = true →
      scan1 M (some c) cs =
        cs.takeWhile isWordC ++
          scan1 M (some (lastD c (cs.takeWhile isWordC))) (cs.dropWhile isWordC) := by
  intro cs
  induction cs with
  | nil =>
    intro c h
    rw [List.takeWhile_nil, List.dropWhile_nil, List.nil_append]
    rfl
  | cons a cs ih =>
    intro c h
    by_cases ha : isWordC a = true
    · rw [scan1_cons_none M (hB c a cs h), List.takeWhile_cons, List.dropWhile_cons,
        if_pos ha, if_pos ha, ih a ha, List.cons_append]
      rfl
    · rw [List.takeWhile_cons, List.dropWhile_cons, if_neg ha, if_neg ha, List.nil_append]
      rfl

theorem takeWhile_eq_cons {p : Char → Bool} {l u' : List Char} {b : Char}
    (h : l.takeWhile p = b :: u') : ∃ t, l = b :: t := by
  cases l with
  | nil => simp at h
  | cons a t =>
    rw [List.takeWhile_cons] at h
    by_cases ha : p a = true
    · rw [if_pos ha] at h
      simp only [List.cons.injEq] at h
      exact ⟨t, by rw [h.1]⟩
    · rw [if_neg ha] at h
      simp at h

theorem dropWhile_of_takeWhile_nil {p : Char → Bool} {l : List Char}
    (h : l.takeWhile p = []) : l.dropWhile p = l := by
  cases l with
  | nil => rfl
  | cons a t =>
    rw [List.takeWhile_cons] at h
    by_cases ha : p a = true
    · rw [if_pos ha] at h; simp at h
    · rw [List.dropWhile_cons, if_neg ha]

theorem head_fail_of_takeWhile_nil {p : Char → Bool} {b : Char} {t : List Char}
    (h : (b :: t).takeWhile p = []) : p b = false := by
  rw [List.takeWhile_cons] at h
  by_cases hb : p b = true
  · rw [if_pos hb] at h; simp at h
  · simpa using hb

theorem lastD_pred {p : Char → Bool} :
    ∀ (A : List Char) (c : Char), p c = true → (∀ a ∈ A, p a = true) →
      p (lastD c A) = true := by
  intro A
  induction A with
  | nil => intro c hc _; exact hc
  | cons a A ih =>
    intro c _ hA
    exact ih a (hA a (List.mem_cons_self a A)) (fun x hx => hA x (List.mem_cons_of_mem a hx))

theorem isDigitC_false_of_not_word {b : Char} (h : isWordC b = false) :
    isDigitC b = false := by
  cases hb : isDigitC b with
  | false => rfl
  | true => rw [isDigitC_word hb] at h; exact h

theorem scanB_num_struct (M : Matcher)
    (hB : ∀ (pc c : Char) (cs : List Char), isWordC pc = true → M (some pc) c cs = none)
    (cs : List Char) (c : Char) (hc : isWordC c = true) :
    (scan1 M (some c) cs).takeWhile isDigitC = cs.takeWhile isDigitC ∧
    ((scan1 M (some c) cs).drop (cs.takeWhile isDigitC).length).head?
      = (cs.drop (cs.takeWhile isDigitC).length).head? := by
  have hcopy := scanB_word_copy M hB cs c hc
  have hsplit := takeWhile_imp_split (p := isDigitC) (q := isWordC)
    (fun a ha => isDigitC_word ha) cs
  have hds : ∀ a ∈ cs.takeWhile isDigitC, isDigitC a = true :=
    fun a ha => List.mem_takeWhile_imp ha
  have hdrop_in : cs.drop (cs.takeWhile isDigitC).length = cs.dropWhile isDigitC :=
    drop_takeWhile_length cs
  cases hu : (cs.dropWhile isDigitC).takeWhile isWordC with
  | cons b u' =>
    obtain ⟨t, hyt⟩ := takeWhile_eq_cons hu
    have hbd : isDigitC b = false := by
      have := dropWhile_head_neg cs (hyt ▸ rfl : cs.dropWhile isDigitC = b :: t)
      exact this
    have hout : scan1 M (some c) cs =
        cs.takeWhile isDigitC ++ b ::
          (u' ++ scan1 M (some (lastD c (cs.takeWhile isWordC)))
            (cs.dropWhile isWordC)) := by
      rw [hcopy, hsplit.1, hu, List.append_assoc, List.cons_append]
    constructor
    · rw [hout, takeWhile_append_stop _ hds hbd]
    · rw [hout, List.drop_left, hdrop_in, hyt]
      rfl
  | nil =>
    have hwr : cs.takeWhile isWordC = cs.takeWhile isDigitC := by
      rw [hsplit.1, hu, List.append_nil]
    have hdw : cs.dropWhile isWordC = cs.dropWhile isDigitC := by
      rw [hsplit.2, dropWhile_of_takeWhile_nil hu]
    cases hy : cs.dropWhile isDigitC with
    | nil =>
      have hout : scan1 M (some c) cs = cs.takeWhile isDigitC := by
        rw [hcopy, hwr, hdw, hy, scan1_nil, List.append_nil]
      constructor
      · rw [hout, takeWhile_all _ hds]
      · rw [hout, List.drop_length, hdrop_in, hy]
    | cons nw t =>
      have hnw : isWordC nw = false := head_fail_of_takeWhile_nil (hy ▸ hu)
      have hlw : isWordC (lastD c (cs.takeWhile isDigitC)) = true :=
        lastD_pred _ c hc (fun a ha => isDigitC_word (List.mem_takeWhile_imp ha))
      have hout : scan1 M (some c) cs =
          cs.takeWhile isDigitC ++ nw :: scan1 M (some nw) t := by
        rw [hcopy, hwr, hdw, hy, scan1_cons_none M (hB _ nw t hlw)]
      constructor
      · rw [hout, takeWhile_append_stop _ hds (isDigitC_false_of_not_word hnw)]
      · rw [hout, List.drop_left, hdrop_in, hy]
        rfl

theorem tryNum_transport {p p' : Option Char} {c : Char} {cs out : List Char}
    (h1 : out.takeWhile isDigitC = cs.takeWhile isDigitC)
    (h2 : (out.drop (cs.takeWhile isDigitC).length).head?
      = (cs.drop (cs.takeWhile isDigitC).length).head?)
    (hin : tryNum p c cs = none) (hbb : boundaryOk p' = true → boundaryOk p = true) :
    tryNum p' c out = none := by
  by_cases hb' : boundaryOk p' = true
  · by_cases hd : isDigitC c = true
    · have hb := hbb hb'
      rw [tryNum_eq, if_pos (by simp [hb, hd])] at hin
      rw [tryNum_eq, if_pos (by simp [hb', hd]), h1, afterOk_congr h2]
      exact hin
    · exact tryNum_nonDigit (by simpa using hd) p' out
  · rw [tryNum_eq, if_neg (by simp [hb'])]

theorem scanT_num_struct (q : Option Char) (cs : List Char) :
    (scan1 tryTs q cs).takeWhile isDigitC = cs.takeWhile isDigitC ∧
    ((scan1 tryTs q cs).drop (cs.takeWhile isDigitC).length).head?
      = (cs.drop (cs.takeWhile isDigitC).length).head? := by
  have hds : ∀ a ∈ cs.takeWhile isDigitC, isDigitC a = true :=
    fun a ha => List.mem_takeWhile_imp ha
  have hdq : ∀ a ∈ cs.takeWhile isDigitC, ¬(a = '"') := by
    intro a ha he
    have := hds a ha
    rw [he] at this
    simp [isDigitC] at this
  have hcopy : scan1 tryTs q cs =
      cs.takeWhile isDigitC ++ scanT (cs.dropWhile isDigitC) := by
    conv_lhs => rw [show cs = cs.takeWhile isDigitC ++ cs.dropWhile isDigitC from
      (List.takeWhile_append_dropWhile isDigitC cs).symm]
    rw [scan1_copy tryTs _ (fun a ha p rest => tryTs_nonquote (hdq a ha) p rest) _ q,
      scan1_tryTs]
  have hdrop_in : cs.drop (cs.takeWhile isDigitC).length = cs.dropWhile isDigitC :=
    drop_takeWhile_length cs
  constructor
  · rw [hcopy]
    cases hy : cs.dropWhile isDigitC with
    | nil => rw [scanT_nil, List.append_nil, takeWhile_all _ hds]
    | cons nw t =>
      have hnw : isDigitC nw = false := dropWhile_head_neg cs hy
      obtain ⟨w, hw⟩ := scanT_head_cons none nw t
      rw [show scanT (nw :: t) = nw :: w from hw, takeWhile_append_stop _ hds hnw]
  · rw [hcopy, List.drop_left, hdrop_in, head?_scanT]

theorem tryNum_some_inv {p : Option Char} {c : Char} {cs : List Char} {k : Nat}
    {rep : List Char} (h : tryNum p c cs = some (k, rep)) :
    boundaryOk p = true ∧ isDigitC c = true ∧ k = (cs.takeWhile isDigitC).length ∧
      rep = numTok ∧ 13 ≤ k + 1 ∧ afterOk (cs.drop k) = true := by
  rw [tryNum_eq] at h
  by_cases hb : (boundaryOk p && isDigitC c) = true
  · rw [if_pos hb] at h
    split at h
    next hcond =>
      simp only [Option.some.injEq, Prod.mk.injEq] at h
      simp only [Bool.and_eq_true, decide_eq_true_eq] at hb hcond
      exact ⟨hb.1, hb.2, h.1.symm, h.2.symm, by omega,
        by rw [← h.1]; exact hcond.2⟩
    next => simp at h
  · rw [if_neg hb] at h
    simp at h

theorem numTok_nonDigit : ∀ a ∈ numTok, isDigitC a = false := by decide

theorem scanN_noNum :
    ∀ (n : Nat) (s : List Char), s.length ≤ n → ∀ (p p' : Option Char),
      ((boundaryOk p' = true → boundaryOk p = true) ∨
        (∀ e t, s = e :: t → isDigitC e = false)) →
      NoMatch tryNum p' (scan1 tryNum p s) := by
  intro n
  induction n with
  | zero =>
    intro s hs p p' _
    rw [List.length_eq_zero.mp (Nat.le_zero.mp hs), scan1_nil]
    trivial
  | succ n ih =>
    intro s hs p p' H
    cases s with
    | nil => rw [scan1_nil]; trivial
    | cons c cs =>
      have hcs : cs.length ≤ n := by
        simp only [List.length_cons] at hs
        omega
      cases hm : tryNum p c cs with
      | some pk =>
        obtain ⟨k, rep⟩ := pk
        obtain ⟨hb, hd, hk, hrep, hlen, haft⟩ := tryNum_some_inv hm
        rw [scan1_cons_some tryNum hm, hrep]
        apply noMatch_append tryNum numTok
          (fun a ha p0 rest => tryNum_nonDigit (numTok_nonDigit a ha) p0 rest)
        apply ih (cs.drop k) (by rw [List.length_drop]; omega)
        right
        intro e t het
        rw [het] at haft
        have hew : isWordC e = false := by simpa [afterOk] using haft
        exact isDigitC_false_of_not_word hew
      | none =>
        rw [scan1_cons_none tryNum hm]
        constructor
        · by_cases hd : isDigitC c = true
          · have hbb : boundaryOk p' = true → boundaryOk p = true := by
              rcases H with H | H
              · exact H
              · exact absurd hd (by simp [H c cs rfl])
            obtain ⟨h1, h2⟩ := scanB_num_struct tryNum
              (fun pc c0 cs0 hw => tryNum_word_prev hw c0 cs0) cs c (isDigitC_word hd)
            exact tryNum_transport h1 h2 hm hbb
          · exact tryNum_nonDigit (by simpa using hd) p' _
        · exact ih cs hcs (some c) (some c) (Or.inl (fun h => h))

/-! uuid matcher basics -/

theorem tryUuid_word_prev {pc : Char} (h : isWordC pc = true) (c : Char) (cs : List Char) :
    tryUuid (some pc) c cs = none := by
  simp [tryUuid, boundaryOk, h]

theorem matchPreds_some_drop :
    ∀ (ps : List (Char → Bool)) (s rest : List Char), matchPreds ps s = some rest →
      rest = s.drop ps.length := by
  intro ps
  induction ps with
  | nil =>
    intro s rest h
    simp only [matchPreds, Option.some.injEq] at h
    rw [← h]
    rfl
  | cons p ps ih =>
    intro s rest h
    cases s with
    | nil => simp [matchPreds] at h
    | cons c cs =>
      rw [matchPreds] at h
      by_cases hp : p c = true
      · rw [if_pos hp] at h
        rw [ih cs rest h]
        rfl
      · rw [if_neg hp] at h
        simp at h

theorem uuidPat_length : uuidPat.length = 36 := rfl

theorem tryUuid_some_inv {p : Option Char} {c : Char} {cs : List Char} {k : Nat}
    {rep : List Char} (h : tryUuid p c cs = some (k, rep)) :
    k = 35 ∧ rep = uuidTok ∧ boundaryOk p = true ∧ afterOk (cs.drop 35) = true := by
  simp only [tryUuid] at h
  by_cases hb : boundaryOk p = true
  · rw [if_pos hb] at h
    cases hmp : matchPreds uuidPat (c :: cs) with
    | none => rw [hmp] at h; simp at h
    | some rest =>
      rw [hmp] at h
      have h' : (if afterOk rest = true then some (35, uuidTok)
          else (none : Option (Nat × List Char))) = some (k, rep) := h
      by_cases ha : afterOk rest = true
      · rw [if_pos ha] at h'
        simp only [Option.some.injEq, Prod.mk.injEq] at h'
        have hr : rest = cs.drop 35 := by
          rw [matchPreds_some_drop uuidPat _ rest hmp, uuidPat_length]
          rfl
        exact ⟨h'.1.symm, h'.2.symm, hb, hr ▸ ha⟩
      · rw [if_neg ha] at h'
        simp at h'
  · rw [if_neg hb] at h
    simp at h

theorem uuidTok_nonDigit : ∀ a ∈ uuidTok, isDigitC a = false := by decide

theorem scanU_preserves_noNum :
    ∀ (n : Nat) (s : List Char), s.length ≤ n → ∀ (pin p' : Option Char),
      NoMatch tryNum pin s →
      ((boundaryOk p' = true → boundaryOk pin = true) ∨
        (∀ e t, s = e :: t → isDigitC e = false)) →
      NoMatch tryNum p' (scan1 tryUuid pin s) := by
  intro n
  induction n with
  | zero =>
    intro s hs pin p' _ _
    rw [List.length_eq_zero.mp (Nat.le_zero.mp hs), scan1_nil]
    trivial
  | succ n ih =>
    intro s hs pin p' hNM H
    cases s with
    | nil => rw [scan1_nil]; trivial
    | cons c cs =>
      have hcs : cs.length ≤ n := by
        simp only [List.length_cons] at hs
        omega
      obtain ⟨hin1, hin2⟩ := hNM
      cases hm : tryUuid pin c cs with
      | some pk =>
        obtain ⟨k, rep⟩ := pk
        obtain ⟨hk, hrep, hb, haft⟩ := tryUuid_some_inv hm
        subst hk
        rw [scan1_cons_some tryUuid hm, hrep]
        apply noMatch_append tryNum uuidTok
          (fun a ha p0 rest => tryNum_nonDigit (uuidTok_nonDigit a ha) p0 rest)
        apply ih (cs.drop 35) (by rw [List.length_drop]; omega)
        · exact noMatch_suffix tryNum 35 c cs pin ⟨hin1, hin2⟩
        · right
          intro e t het
          rw [het] at haft
          have hew : isWordC e = false := by simpa [afterOk] using haft
          exact isDigitC_false_of_not_word hew
      | none =>
        rw [scan1_cons_none tryUuid hm]
        constructor
        · by_cases hd : isDigitC c = true
          · have hbb : boundaryOk p' = true → boundaryOk pin = true := by
              rcases H with H | H
              · exact H
              · exact absurd hd (by simp [H c cs rfl])
            obtain ⟨h1, h2⟩ := scanB_num_struct tryUuid
              (fun pc c0 cs0 hw => tryUuid_word_prev hw c0 cs0) cs c (isDigitC_word hd)
            exact tryNum_transport h1 h2 hin1 hbb
          · exact tryNum_nonDigit (by simpa using hd) p' _
        · exact ih cs hcs (some c) (some c) hin2 (Or.inl (fun h => h))

theorem isDigitC_toLower (c : Char) : isDigitC (Char.toLower c) = isDigitC c := by
  have ht := toLower_toNat c
  cases hb : isDigitC c with
  | true =>
    have hn := (isDigitC_iff c).mp hb
    have : (Char.toLower c).toNat = c.toNat := by rw [ht, if_neg (by omega)]
    exact (isDigitC_iff _).mpr (by omega)
  | false =>
    cases hb' : isDigitC (Char.toLower c) with
    | false => rfl
    | true =>
      exfalso
      have hn := (isDigitC_iff _).mp hb'
      have hnb : ¬(48 ≤ c.toNat ∧ c.toNat ≤ 57) := by
        intro hc
        exact absurd ((isDigitC_iff c).mpr hc) (by simp [hb])
      rw [ht] at hn
      split at hn <;> omega

theorem forall2_mem {R : Char → Char → Prop} :
    ∀ {K m : List Char}, List.Forall₂ R K m → ∀ a ∈ m, ∃ k ∈ K, R k a := by
  intro K m h
  induction h with
  | nil => intro a ha; simp at ha
  | cons hr _ ih =>
    intro a ha
    rcases List.mem_cons.mp ha with ha | ha
    · subst ha
      exact ⟨_, List.mem_cons_self _ _, hr⟩
    · obtain ⟨k, hk, hrk⟩ := ih a ha
      exact ⟨k, List.mem_cons_of_mem _ hk, hrk⟩

theorem tsKeys_nonDigit : ∀ K ∈ tsKeys, ∀ k ∈ K, isDigitC (Char.toLower k) = false := by
  decide

theorem tryTs_rep_nonDigit {p : Option Char} {c : Char} {cs : List Char} {k : Nat}
    {rep : List Char} (h : tryTs p c cs = some (k, rep)) :
    ∀ a ∈ rep, isDigitC a = false := by
  obtain ⟨-, keyM, r1, r3, r5, r6, hkey, -, -, -, -, -, hrep⟩ := tryTs_some_inv h
  obtain ⟨K, hK, hs⟩ := tryTsKey_spec tsKeys cs hkey
  have hkeyM : ∀ a ∈ keyM, isDigitC a = false := by
    intro a ha
    obtain ⟨kk, hkk, hr⟩ := forall2_mem (stripKey_spec K cs hs).2 a ha
    rw [← isDigitC_toLower a, eqIC_lower hr, isDigitC_toLower]
    rw [← isDigitC_toLower kk]
    exact tsKeys_nonDigit K hK kk hkk
  intro a ha
  rw [hrep] at ha
  have htok : ∀ x ∈ tsTok, isDigitC x = false := by decide
  rcases List.mem_append.mp ha with h1 | h1
  · rcases List.mem_append.mp h1 with h2 | h2
    · rcases List.mem_cons.mp h2 with h3 | h3
      · rw [h3]; rfl
      · exact hkeyM a h3
    · rcases List.mem_cons.mp h2 with h3 | h3
      · rw [h3]; rfl
      rcases List.mem_cons.mp h3 with h4 | h4
      · rw [h4]; rfl
      rcases List.mem_cons.mp h4 with h5 | h5
      · rw [h5]; rfl
      · exact htok a h5
  · rw [List.mem_singleton.mp h1]; rfl

theorem lastD_concat : ∀ (Q : List Char) (c b : Char), lastD c (Q ++ [b]) = b := by
  intro Q
  induction Q with
  | nil => intro c b; rfl
  | cons q Q ih => intro c b; exact ih q b

theorem take_prefix_length {P rest : List Char} : (P ++ rest).take P.length = P :=
  List.take_left P rest

theorem take_takeWhile_length {p : Char → Bool} (l : List Char) :
    l.take (l.takeWhile p).length = l.takeWhile p := by
  obtain ⟨t, htp⟩ := List.takeWhile_prefix (l := l) (p := p)
  have h2 : (l.takeWhile p ++ t).take (l.takeWhile p).length = l.takeWhile p :=
    List.take_left _ _
  rw [htp] at h2
  exact h2

theorem tryTs_take_last {p : Option Char} {c : Char} {cs : List Char} {k : Nat}
    {rep : List Char} (h : tryTs p c cs = some (k, rep)) :
    lastD c (cs.take k) = '"' := by
  obtain ⟨hc, keyM, r1, r3, r5, r6, hkey, hd1, hd2, hd3, hlen, hk, -⟩ := tryTs_some_inv h
  have hcs1 : cs = keyM ++ '"' :: r1 := tryTsKey_cs_eq hkey
  have hr1 : r1 = r1.takeWhile isSpaceC ++ ':' :: r3 := by
    conv_lhs => rw [← List.takeWhile_append_dropWhile isSpaceC r1]
    rw [hd1]
  have hr3 : r3 = r3.takeWhile isSpaceC ++ '"' :: r5 := by
    conv_lhs => rw [← List.takeWhile_append_dropWhile isSpaceC r3]
    rw [hd2]
  have hr5 : r5 = r5.takeWhile (fun d => d != '"') ++ '"' :: r6 := by
    conv_lhs => rw [← List.take_append_drop
      (r5.takeWhile (fun d => d != '"')).length r5]
    rw [hd3]
    congr 1
    exact take_takeWhile_length r5
  obtain ⟨Q, hQ⟩ : ∃ Q, cs = (Q ++ ['"']) ++ r6 := by
    refine ⟨keyM ++ '"' :: (r1.takeWhile isSpaceC ++ ':' ::
      (r3.takeWhile isSpaceC ++ '"' :: r5.takeWhile (fun d => d != '"'))), ?_⟩
    rw [hcs1]
    conv_lhs => rw [hr1, hr3, hr5]
    simp
  have hklen : k = (Q ++ ['"']).length := by
    have hcl : cs.length = (Q ++ ['"']).length + r6.length := by
      rw [hQ, List.length_append]
    omega
  rw [hklen, hQ, take_prefix_length, lastD_concat]

theorem scanT_preserves_noNum :
    ∀ (n : Nat) (s : List Char), s.length ≤ n → ∀ (pin q p' : Option Char),
      NoMatch tryNum pin s →
      (boundaryOk p' = true → boundaryOk pin = true) →
      NoMatch tryNum p' (scan1 tryTs q s) := by
  intro n
  induction n with
  | zero =>
    intro s hs pin q p' _ _
    rw [List.length_eq_zero.mp (Nat.le_zero.mp hs), scan1_nil]
    trivial
  | succ n ih =>
    intro s hs pin q p' hNM hrel
    cases s with
    | nil => rw [scan1_nil]; trivial
    | cons c cs =>
      have hcs : cs.length ≤ n := by
        simp only [List.length_cons] at hs
        omega
      obtain ⟨hin1, hin2⟩ := hNM
      cases hm : tryTs q c cs with
      | some pk =>
        obtain ⟨k, rep⟩ := pk
        rw [scan1_cons_some tryTs hm]
        apply noMatch_append tryNum rep
          (fun a ha p0 rest => tryNum_nonDigit (tryTs_rep_nonDigit hm a ha) p0 rest)
        apply ih (cs.drop k) (by rw [List.length_drop]; omega)
        · exact noMatch_suffix tryNum k c cs pin ⟨hin1, hin2⟩
        · intro _
          rw [tryTs_take_last hm]
          rfl
      | none =>
        rw [scan1_cons_none tryTs hm]
        constructor
        · by_cases hd : isDigitC c = true
          · obtain ⟨h1, h2⟩ := scanT_num_struct (some c) cs
            exact tryNum_transport h1 h2 hin1 hrel
          · exact tryNum_nonDigit (by simpa using hd) p' _
        · exact ih cs hcs (some c) (some c) (some c) hin2 (fun h => h)

theorem isHexC_word {c : Char} (h : isHexC c = true) : isWordC c = true := by
  rw [isHexC_iff] at h
  rw [isWordC_iff]
  omega

theorem uuidPat_classes :
    ∀ q ∈ uuidPat, q = isHexC ∨ q = isDashC ∨ q = isVerC ∨ q = isVarC := by
  intro q hq
  simp only [uuidPat, List.mem_append, List.mem_replicate, List.mem_singleton] at hq
  tauto

theorem isVerC_word {c : Char} (h : isVerC c = true) : isWordC c = true := by
  simp only [isVerC, Bool.and_eq_true, decide_eq_true_eq] at h
  obtain ⟨h1, h2⟩ := h
  rw [charLe_iff] at h1 h2
  simp only [show ('1' : Char).toNat = 49 from rfl,
    show ('5' : Char).toNat = 53 from rfl] at h1 h2
  rw [isWordC_iff]
  left
  constructor <;> omega

theorem isVarC_cases {c : Char} (h : isVarC c = true) :
    c = '8' ∨ c = '9' ∨ c = 'a' ∨ c = 'b' ∨ c = 'A' ∨ c = 'B' := by
  simp only [isVarC, Bool.or_eq_true, beq_iff_eq] at h
  tauto

theorem isVarC_word {c : Char} (h : isVarC c = true) : isWordC c = true := by
  rcases isVarC_cases h with h | h | h | h | h | h <;> subst h <;> rfl

theorem isDashC_eq {c : Char} (h : isDashC c = true) : c = '-' := by
  simpa [isDashC] using h

theorem uuidPat_accepts {q : Char → Bool} (hq : q ∈ uuidPat) {ch : Char}
    (h : q ch = true) : isWordC ch = true ∨ ch = '-' := by
  rcases uuidPat_classes q hq with rfl | rfl | rfl | rfl
  · exact Or.inl (isHexC_word h)
  · exact Or.inr (isDashC_eq h)
  · exact Or.inl (isVerC_word h)
  · exact Or.inl (isVarC_word h)

theorem uuidPat_lt {q : Char → Bool} (hq : q ∈ uuidPat) : q '<' = false := by
  rcases uuidPat_classes q hq with rfl | rfl | rfl | rfl <;> rfl

theorem uuidPat_getLast : uuidPat.getLast? = some isHexC := rfl

theorem tryUuid_fail_preds {c : Char} {cs : List Char}
    (h : matchPreds uuidPat (c :: cs) = none) (p : Option Char) :
    tryUuid p c cs = none := by
  simp [tryUuid, h]

theorem tryUuid_fail_after {c : Char} {cs rest : List Char}
    (h1 : matchPreds uuidPat (c :: cs) = some rest) (h2 : afterOk rest = false)
    (p : Option Char) : tryUuid p c cs = none := by
  simp [tryUuid, h1, h2]

theorem uuidPat_expand :
    uuidPat = isHexC :: (List.replicate 7 isHexC ++ [isDashC] ++
      List.replicate 4 isHexC ++ [isDashC] ++ [isVerC] ++ List.replicate 3 isHexC ++
      [isDashC] ++ [isVarC] ++ List.replicate 3 isHexC ++ [isDashC] ++
      List.replicate 12 isHexC) := by
  simp [uuidPat, List.replicate_succ]

theorem tryUuid_nonHex {c : Char} (h : isHexC c = false) (p : Option Char)
    (cs : List Char) : tryUuid p c cs = none := by
  apply tryUuid_fail_preds
  rw [uuidPat_expand, matchPreds, if_neg (by simp [h])]

theorem matchPreds_replicate_hex :
    ∀ (n : Nat) (ps : List (Char → Bool)) (s : List Char),
      (s.takeWhile isHexC).length < n →
      matchPreds (List.replicate n isHexC ++ ps) s = none := by
  intro n
  induction n with
  | zero => intro ps s h; omega
  | succ n ih =>
    intro ps s h
    rw [List.replicate_succ, List.cons_append]
    cases s with
    | nil => rfl
    | cons c cs =>
      rw [matchPreds]
      by_cases hc : isHexC c = true
      · rw [if_pos hc]
        apply ih
        rw [List.takeWhile_cons, if_pos hc] at h
        simp only [List.length_cons] at h
        omega
      · rw [if_neg hc]

theorem matchPreds_hex8 {s : List Char} (h : (s.takeWhile isHexC).length < 8) :
    matchPreds uuidPat s = none := by
  have : uuidPat = List.replicate 8 isHexC ++ ([isDashC] ++ List.replicate 4 isHexC ++
      [isDashC] ++ [isVerC] ++ List.replicate 3 isHexC ++ [isDashC] ++ [isVarC] ++
      List.replicate 3 isHexC ++ [isDashC] ++ List.replicate 12 isHexC) := by
    simp [uuidPat]
  rw [this]
  exact matchPreds_replicate_hex 8 _ s h

theorem takeWhile_le_of_get {p : Char → Bool} :
    ∀ (l : List Char) (j : Nat) (c : Char), l.get? j = some c → p c = false →
      (l.takeWhile p).length ≤ j := by
  intro l
  induction l with
  | nil => intro j c h _; simp at h
  | cons a t ih =>
    intro j c h hc
    cases j with
    | zero =>
      simp only [List.get?_cons_zero, Option.some.injEq] at h
      rw [List.takeWhile_cons, if_neg (by rw [← h] at hc; simp [hc])]
      simp
    | succ j =>
      rw [List.takeWhile_cons]
      by_cases ha : p a = true
      · rw [if_pos ha]
        simp only [List.length_cons]
        have := ih j c (by simpa using h) hc
        omega
      · rw [if_neg ha]
        simp

theorem uuidPat_walk :
    ∀ (ps : List (Char → Bool)), ps <:+ uuidPat →
      ∀ (cs : List Char) (pv : Char),
        (isWordC pv = true ∨ (pv = '-' ∧ ¬(ps = []))) →
        (matchPreds ps cs = none →
          matchPreds ps (scan1 tryUuid (some pv) cs) = none) ∧
        (∀ rest, matchPreds ps cs = some rest → afterOk rest = false →
          matchPreds ps (scan1 tryUuid (some pv) cs) = none ∨
          ∃ rest', matchPreds ps (scan1 tryUuid (some pv) cs) = some rest' ∧
            afterOk rest' = false) := by
  intro ps
  induction ps with
  | nil =>
    intro hsuf cs pv hpv
    constructor
    · intro h
      simp [matchPreds] at h
    · intro rest h ha
      simp only [matchPreds, Option.some.injEq] at h
      subst h
      have hpw : isWordC pv = true := by
        rcases hpv with h | ⟨_, hne⟩
        · exact h
        · exact absurd rfl hne
      cases cs with
      | nil => simp [afterOk] at ha
      | cons w t =>
        have hww : isWordC w = true := by simpa [afterOk] using ha
        right
        rw [scan1_cons_none tryUuid (tryUuid_word_prev hpw w t)]
        exact ⟨w :: scan1 tryUuid (some w) t, rfl, by simpa [afterOk] using hww⟩
  | cons q ps ih =>
    intro hsuf cs pv hpv
    have hq : q ∈ uuidPat := hsuf.subset (List.mem_cons_self q ps)
    have hsuf' : ps <:+ uuidPat := (List.suffix_cons q ps).trans hsuf
    cases cs with
    | nil =>
      constructor
      · intro _
        rw [scan1_nil]
        rfl
      · intro rest h
        simp [matchPreds] at h
    | cons e cs' =>
      cases hm : tryUuid (some pv) e cs' with
      | some pk =>
        obtain ⟨k, rep⟩ := pk
        obtain ⟨hk, hrep, -, -⟩ := tryUuid_some_inv hm
        subst hk
        subst hrep
        have hout : ∀ Z, matchPreds (q :: ps) (uuidTok ++ Z) = none := by
          intro Z
          have hz : uuidTok ++ Z = '<' :: (['u', 'u', 'i', 'd', '>'] ++ Z) := rfl
          rw [hz, matchPreds, if_neg (by simp [uuidPat_lt hq])]
        rw [scan1_cons_some tryUuid hm]
        constructor
        · intro _
          exact hout _
        · intro rest _ _
          exact Or.inl (hout _)
      | none =>
        rw [scan1_cons_none tryUuid hm]
        by_cases hqe : q e = true
        · have hnext : isWordC e = true ∨ (e = '-' ∧ ¬(ps = [])) := by
            rcases uuidPat_accepts hq hqe with h | h
            · exact Or.inl h
            · subst h
              right
              refine ⟨rfl, ?_⟩
              intro hnil
              subst hnil
              obtain ⟨front, hfront⟩ := hsuf
              have hlast := congrArg List.getLast? hfront
              rw [List.getLast?_concat] at hlast
              rw [uuidPat_getLast] at hlast
              have hqh : q = isHexC := by simpa using hlast
              rw [hqh] at hqe
              exact absurd hqe (by decide)
          obtain ⟨ihn, ihs⟩ := ih hsuf' cs' e hnext
          constructor
          · intro h
            rw [matchPreds, if_pos hqe] at h
            rw [matchPreds, if_pos hqe]
            exact ihn h
          · intro rest h ha
            rw [matchPreds, if_pos hqe] at h
            rw [matchPreds, if_pos hqe]
            exact ihs rest h ha
        · constructor
          · intro _
            rw [matchPreds, if_neg hqe]
          · intro rest h
            rw [matchPreds, if_neg hqe] at h
            simp at h

theorem tryUuid_noBoundary {p : Option Char} (h : boundaryOk p = false) (c : Char)
    (cs : List Char) : tryUuid p c cs = none := by
  simp [tryUuid, h]

theorem isHexC_false_of_not_word {c : Char} (h : isWordC c = false) :
    isHexC c = false := by
  cases hh : isHexC c with
  | false => rfl
  | true => rw [isHexC_word hh] at h; exact h

theorem scanU_noUuid :
    ∀ (n : Nat) (s : List Char), s.length ≤ n → ∀ (p p' : Option Char),
      ((boundaryOk p' = true → boundaryOk p = true) ∨
        (∀ e t, s = e :: t → isWordC e = false)) →
      NoMatch tryUuid p' (scan1 tryUuid p s) := by
  intro n
  induction n with
  | zero =>
    intro s hs p p' _
    rw [List.length_eq_zero.mp (Nat.le_zero.mp hs), scan1_nil]
    trivial
  | succ n ih =>
    intro s hs p p' H
    cases s with
    | nil => rw [scan1_nil]; trivial
    | cons c cs =>
      have hcs : cs.length ≤ n := by
        simp only [List.length_cons] at hs
        omega
      cases hm : tryUuid p c cs with
      | some pk =>
        obtain ⟨k, rep⟩ := pk
        obtain ⟨hk, hrep, hb, haft⟩ := tryUuid_some_inv hm
        subst hk
        subst hrep
        rw [scan1_cons_some tryUuid hm]
        have hZ : NoMatch tryUuid (some '>')
            (scan1 tryUuid (some (lastD c (cs.take 35))) (cs.drop 35)) := by
          apply ih (cs.drop 35) (by rw [List.length_drop]; omega)
          right
          intro e t het
          rw [het] at haft
          simpa [afterOk] using haft
        have hd : tryUuid p' '<'
            (['u', 'u', 'i', 'd', '>'] ++
              scan1 tryUuid (some (lastD c (cs.take 35))) (cs.drop 35)) = none :=
          tryUuid_nonHex (by decide) p' _
        refine ⟨hd, tryUuid_nonHex (by decide) _ _, tryUuid_nonHex (by decide) _ _,
          tryUuid_nonHex (by decide) _ _, ?_, tryUuid_nonHex (by decide) _ _, hZ⟩
        apply tryUuid_fail_preds
        apply matchPreds_hex8
        exact Nat.lt_of_le_of_lt
          (takeWhile_le_of_get
            ('d' :: '>' :: scan1 tryUuid (some (lastD c (cs.take 35))) (cs.drop 35))
            1 '>' rfl (by decide))
          (by norm_num)
      | none =>
        rw [scan1_cons_none tryUuid hm]
        refine ⟨?_, ih cs hcs (some c) (some c) (Or.inl (fun h => h))⟩
        by_cases hhex : isHexC c = true
        · have hbb : boundaryOk p' = true → boundaryOk p = true := by
            rcases H with H | H
            · exact H
            · exact absurd (isHexC_word hhex) (by simp [H c cs rfl])
          by_cases hb' : boundaryOk p' = true
          · have hb : boundaryOk p = true := hbb hb'
            obtain ⟨ps0, hps0⟩ : ∃ ps0, uuidPat = isHexC :: ps0 := ⟨_, uuidPat_expand⟩
            have hred : ∀ X, matchPreds uuidPat (c :: X) = matchPreds ps0 X := by
              intro X
              rw [hps0, matchPreds, if_pos hhex]
            have hsuf0 : ps0 <:+ uuidPat := by
              rw [hps0]
              exact List.suffix_cons _ _
            obtain ⟨wn, ws⟩ := uuidPat_walk ps0 hsuf0 cs c (Or.inl (isHexC_word hhex))
            simp only [tryUuid] at hm
            rw [if_pos hb, hred cs] at hm
            cases hmp : matchPreds ps0 cs with
            | none => exact tryUuid_fail_preds (by rw [hred]; exact wn hmp) p'
            | some rest =>
              rw [hmp] at hm
              have hm' : (if afterOk rest = true then some (35, uuidTok)
                  else (none : Option (Nat × List Char))) = none := hm
              have haf : afterOk rest = false := by
                by_contra hafc
                rw [if_pos (by simpa using hafc)] at hm'
                simp at hm'
              rcases ws rest hmp haf with hout | ⟨rest', ho1, ho2⟩
              · exact tryUuid_fail_preds (by rw [hred]; exact hout) p'
              · exact tryUuid_fail_after (by rw [hred]; exact ho1) ho2 p'
          · exact tryUuid_noBoundary (by simpa using hb') c _
        · exact tryUuid_nonHex (by simpa using hhex) p' _

theorem isHexC_toLower (c : Char) : isHexC (Char.toLower c) = isHexC c := by
  have ht := toLower_toNat c
  cases hb : isHexC c with
  | true =>
    have hn := (isHexC_iff c).mp hb
    apply (isHexC_iff _).mpr
    rw [ht]
    split <;> omega
  | false =>
    cases hb' : isHexC (Char.toLower c) with
    | false => rfl
    | true =>
      exfalso
      have hn := (isHexC_iff _).mp hb'
      have hnb : ¬((48 ≤ c.toNat ∧ c.toNat ≤ 57) ∨ (97 ≤ c.toNat ∧ c.toNat ≤ 102) ∨
          (65 ≤ c.toNat ∧ c.toNat ≤ 70)) := by
        intro hc
        exact absurd ((isHexC_iff c).mpr hc) (by simp [hb])
      rw [ht] at hn
      split at hn <;> omega

theorem isHexC_eqIC {k c : Char} (h : eqIC k c = true) : isHexC c = isHexC k := by
  rw [← isHexC_toLower c, eqIC_lower h, isHexC_toLower]

theorem uuidPat_quote {q : Char → Bool} (hq : q ∈ uuidPat) : q '"' = false := by
  rcases uuidPat_classes q hq with rfl | rfl | rfl | rfl <;> rfl

theorem isWordC_not_quote {w : Char} (h : isWordC w = true) : ¬(w = '"') := by
  intro he
  rw [he] at h
  exact absurd h (by decide)

theorem uuidPat_walk_ts :
    ∀ (ps : List (Char → Bool)), ps <:+ uuidPat →
      ∀ (cs : List Char) (q : Option Char),
        (matchPreds ps cs = none → matchPreds ps (scan1 tryTs q cs) = none) ∧
        (∀ rest, matchPreds ps cs = some rest → afterOk rest = false →
          matchPreds ps (scan1 tryTs q cs) = none ∨
          ∃ rest', matchPreds ps (scan1 tryTs q cs) = some rest' ∧
            afterOk rest' = false) := by
  intro ps
  induction ps with
  | nil =>
    intro hsuf cs q
    constructor
    · intro h
      simp [matchPreds] at h
    · intro rest h ha
      simp only [matchPreds, Option.some.injEq] at h
      subst h
      cases cs with
      | nil => simp [afterOk] at ha
      | cons w t =>
        have hww : isWordC w = true := by simpa [afterOk] using ha
        right
        rw [scan1_cons_none tryTs (tryTs_nonquote (isWordC_not_quote hww) q t)]
        exact ⟨w :: scan1 tryTs (some w) t, rfl, by simpa [afterOk] using hww⟩
  | cons q0 ps ih =>
    intro hsuf cs q
    have hq : q0 ∈ uuidPat := hsuf.subset (List.mem_cons_self q0 ps)
    have hsuf' : ps <:+ uuidPat := (List.suffix_cons q0 ps).trans hsuf
    cases cs with
    | nil =>
      constructor
      · intro _
        rw [scan1_nil]
        rfl
      · intro rest h
        simp [matchPreds] at h
    | cons e cs' =>
      by_cases heq : e = '"'
      · subst heq
        have hfail : q0 '"' = false := uuidPat_quote hq
        obtain ⟨t, ht⟩ := scanT_head_cons q '"' cs'
        rw [ht]
        constructor
        · intro _
          rw [matchPreds, if_neg (by simp [hfail])]
        · intro rest h
          rw [matchPreds, if_neg (by simp [hfail])] at h
          simp at h
      · rw [scan1_cons_none tryTs (tryTs_nonquote heq q cs')]
        by_cases hqe : q0 e = true
        · obtain ⟨ihn, ihs⟩ := ih hsuf' cs' (some e)
          constructor
          · intro h
            rw [matchPreds, if_pos hqe] at h
            rw [matchPreds, if_pos hqe]
            exact ihn h
          · intro rest h ha
            rw [matchPreds, if_pos hqe] at h
            rw [matchPreds, if_pos hqe]
            exact ihs rest h ha
        · constructor
          · intro _
            rw [matchPreds, if_neg hqe]
          · intro rest h
            rw [matchPreds, if_neg hqe] at h
            simp at h

theorem noMatch_uuid_rep {p : Option Char} {c : Char} {cs : List Char} {k : Nat}
    {rep : List Char} (h : tryTs p c cs = some (k, rep)) :
    ∀ (Z : List Char) (q : Option Char), NoMatch tryUuid (some '"') Z →
      NoMatch tryUuid q (rep ++ Z) := by
  obtain ⟨-, keyM, r1, r3, r5, r6, hkey, -, -, -, -, -, hrep⟩ := tryTs_some_inv h
  obtain ⟨K, hK, hs⟩ := tryTsKey_spec tsKeys cs hkey
  have hf := (stripKey_spec K cs hs).2
  intro Z q hZ
  subst hrep
  rw [tsKeys_expand] at hK
  simp only [List.mem_cons, List.not_mem_nil, or_false] at hK
  rcases hK with hK | hK | hK | hK | hK
  · subst hK
    obtain _ | ⟨h0, hf⟩ := hf
    obtain _ | ⟨h1, hf⟩ := hf
    obtain _ | ⟨h2, hf⟩ := hf
    obtain _ | ⟨h3, hf⟩ := hf
    obtain _ | ⟨h4, hf⟩ := hf
    obtain _ | ⟨h5, hf⟩ := hf
    obtain _ | ⟨h6, hf⟩ := hf
    cases hf
    repeat' apply And.intro
    all_goals first
      | exact hZ
      | exact tryUuid_nonHex (by first
          | decide
          | (rw [isHexC_eqIC h0]; decide)
          | (rw [isHexC_eqIC h1]; decide)
          | (rw [isHexC_eqIC h2]; decide)
          | (rw [isHexC_eqIC h3]; decide)
          | (rw [isHexC_eqIC h4]; decide)
          | (rw [isHexC_eqIC h5]; decide)
          | (rw [isHexC_eqIC h6]; decide)
          ) _ _
      | (apply tryUuid_fail_preds
         apply matchPreds_hex8
         refine Nat.lt_of_le_of_lt (takeWhile_le_of_get _ 1 _ rfl ?_) (by norm_num)
         first
          | decide
          | (rw [isHexC_eqIC h1]; decide)
          | (rw [isHexC_eqIC h2]; decide)
          | (rw [isHexC_eqIC h3]; decide)
          | (rw [isHexC_eqIC h4]; decide)
          | (rw [isHexC_eqIC h5]; decide)
          | (rw [isHexC_eqIC h6]; decide)
         )
      | (apply tryUuid_fail_preds
         apply matchPreds_hex8
         refine Nat.lt_of_le_of_lt (takeWhile_le_of_get _ 2 _ rfl ?_) (by norm_num)
         first
          | decide
          | (rw [isHexC_eqIC h2]; decide)
          | (rw [isHexC_eqIC h3]; decide)
          | (rw [isHexC_eqIC h4]; decide)
          | (rw [isHexC_eqIC h5]; decide)
          | (rw [isHexC_eqIC h6]; decide)
         )
  · subst hK
    obtain _ | ⟨h0, hf⟩ := hf
    obtain _ | ⟨h1, hf⟩ := hf
    obtain _ | ⟨h2, hf⟩ := hf
    obtain _ | ⟨h3, hf⟩ := hf
    obtain _ | ⟨h4, hf⟩ := hf
    obtain _ | ⟨h5, hf⟩ := hf
    obtain _ | ⟨h6, hf⟩ := hf
    cases hf
    repeat' apply And.intro
    all_goals first
      | exact hZ
      | exact tryUuid_nonHex (by first
          | decide
          | (rw [isHexC_eqIC h0]; decide)
          | (rw [isHexC_eqIC h1]; decide)
          | (rw [isHexC_eqIC h2]; decide)
          | (rw [isHexC_eqIC h3]; decide)
          | (rw [isHexC_eqIC h4]; decide)
          | (rw [isHexC_eqIC h5]; decide)
          | (rw [isHexC_eqIC h6]; decide)
          ) _ _
      | (apply tryUuid_fail_preds
         apply matchPreds_hex8
         refine Nat.lt_of_le_of_lt (takeWhile_le_of_get _ 1 _ rfl ?_) (by norm_num)
         first
          | decide
          | (rw [isHexC_eqIC h1]; decide)
          | (rw [isHexC_eqIC h2]; decide)
          | (rw [isHexC_eqIC h3]; decide)
          | (rw [isHexC_eqIC h4]; decide)
          | (rw [isHexC_eqIC h5]; decide)
          | (rw [isHexC_eqIC h6]; decide)
         )
      | (apply tryUuid_fail_preds
         apply matchPreds_hex8
         refine Nat.lt_of_le_of_lt (takeWhile_le_of_get _ 2 _ rfl ?_) (by norm_num)
         first
          | decide
          | (rw [isHexC_eqIC h2]; decide)
          | (rw [isHexC_eqIC h3]; decide)
          | (rw [isHexC_eqIC h4]; decide)
          | (rw [isHexC_eqIC h5]; decide)
          | (rw [isHexC_eqIC h6]; decide)
         )
  · subst hK
    obtain _ | ⟨h0, hf⟩ := hf
    obtain _ | ⟨h1, hf⟩ := hf
    obtain _ | ⟨h2, hf⟩ := hf
    obtain _ | ⟨h3, hf⟩ := hf
    obtain _ | ⟨h4, hf⟩ := hf
    obtain _ | ⟨h5, hf⟩ := hf
    obtain _ | ⟨h6, hf⟩ := hf
    obtain _ | ⟨h7, hf⟩ := hf
    obtain _ | ⟨h8, hf⟩ := hf
    cases hf
    repeat' apply And.intro
    all_goals first
      | exact hZ
      | exact tryUuid_nonHex (by first
          | decide
          | (rw [isHexC_eqIC h0]; decide)
          | (rw [isHexC_eqIC h1]; decide)
          | (rw [isHexC_eqIC h2]; decide)
          | (rw [isHexC_eqIC h3]; decide)
          | (rw [isHexC_eqIC h4]; decide)
          | (rw [isHexC_eqIC h5]; decide)
          | (rw [isHexC_eqIC h6]; decide)
          | (rw [isHexC_eqIC h7]; decide)
          | (rw [isHexC_eqIC h8]; decide)
          ) _ _
      | (apply tryUuid_fail_preds
         apply matchPreds_hex8
         refine Nat.lt_of_le_of_lt (takeWhile_le_of_get _ 1 _ rfl ?_) (by norm_num)
         first
          | decide
          | (rw [isHexC_eqIC h1]; decide)
          | (rw [isHexC_eqIC h2]; decide)
          | (rw [isHexC_eqIC h3]; decide)
          | (rw [isHexC_eqIC h4]; decide)
          | (rw [isHexC_eqIC h5]; decide)
          | (rw [isHexC_eqIC h6]; decide)
          | (rw [isHexC_eqIC h7]; decide)
          | (rw [isHexC_eqIC h8]; decide)
         )
      | (apply tryUuid_fail_preds
         apply matchPreds_hex8
         refine Nat.lt_of_le_of_lt (takeWhile_le_of_get _ 2 _ rfl ?_) (by norm_num)
         first
          | decide
          | (rw [isHexC_eqIC h2]; decide)
          | (rw [isHexC_eqIC h3]; decide)
          | (rw [isHexC_eqIC h4]; decide)
          | (rw [isHexC_eqIC h5]; decide)
          | (rw [isHexC_eqIC h6]; decide)
          | (rw [isHexC_eqIC h7]; decide)
          | (rw [isHexC_eqIC h8]; decide)
         )
  · subst hK
    obtain _ | ⟨h0, hf⟩ := hf
    obtain _ | ⟨h1, hf⟩ := hf
    cases hf
    repeat' apply And.intro
    all_goals first
      | exact hZ
      | exact tryUuid_nonHex (by first
          | decide
          | (rw [isHexC_eqIC h0]; decide)
          | (rw [isHexC_eqIC h1]; decide)
          ) _ _
      | (apply tryUuid_fail_preds
         apply matchPreds_hex8
         refine Nat.lt_of_le_of_lt (takeWhile_le_of_get _ 1 _ rfl ?_) (by norm_num)
         first
          | decide
          | (rw [isHexC_eqIC h1]; decide)
         )
      | (apply tryUuid_fail_preds
         apply matchPreds_hex8
         refine Nat.lt_of_le_of_lt (takeWhile_le_of_get _ 2 _ rfl ?_) (by norm_num)
         first
          | decide
         )
  · subst hK
    obtain _ | ⟨h0, hf⟩ := hf
    obtain _ | ⟨h1, hf⟩ := hf
    obtain _ | ⟨h2, hf⟩ := hf
    obtain _ | ⟨h3, hf⟩ := hf
    cases hf
    repeat' apply And.intro
    all_goals first
      | exact hZ
      | exact tryUuid_nonHex (by first
          | decide
          | (rw [isHexC_eqIC h0]; decide)
          | (rw [isHexC_eqIC h1]; decide)
          | (rw [isHexC_eqIC h2]; decide)
          | (rw [isHexC_eqIC h3]; decide)
          ) _ _
      | (apply tryUuid_fail_preds
         apply matchPreds_hex8
         refine Nat.lt_of_le_of_lt (takeWhile_le_of_get _ 1 _ rfl ?_) (by norm_num)
         first
          | decide
          | (rw [isHexC_eqIC h1]; decide)
          | (rw [isHexC_eqIC h2]; decide)
          | (rw [isHexC_eqIC h3]; decide)
         )
      | (apply tryUuid_fail_preds
         apply matchPreds_hex8
         refine Nat.lt_of_le_of_lt (takeWhile_le_of_get _ 2 _ rfl ?_) (by norm_num)
         first
          | decide
          | (rw [isHexC_eqIC h2]; decide)
          | (rw [isHexC_eqIC h3]; decide)
         )

theorem scanT_preserves_noUuid :
    ∀ (n : Nat) (s : List Char), s.length ≤ n → ∀ (pin q p' : Option Char),
      NoMatch tryUuid pin s →
      (boundaryOk p' = true → boundaryOk pin = true) →
      NoMatch tryUuid p' (scan1 tryTs q s) := by
  intro n
  induction n with
  | zero =>
    intro s hs pin q p' _ _
    rw [List.length_eq_zero.mp (Nat.le_zero.mp hs), scan1_nil]
    trivial
  | succ n ih =>
    intro s hs pin q p' hNM hrel
    cases s with
    | nil => rw [scan1_nil]; trivial
    | cons c cs =>
      have hcs : cs.length ≤ n := by
        simp only [List.length_cons] at hs
        omega
      obtain ⟨hin1, hin2⟩ := hNM
      cases hm : tryTs q c cs with
      | some pk =>
        obtain ⟨k, rep⟩ := pk
        rw [scan1_cons_some tryTs hm]
        apply noMatch_uuid_rep hm
        apply ih (cs.drop k) (by rw [List.length_drop]; omega)
        · exact noMatch_suffix tryUuid k c cs pin ⟨hin1, hin2⟩
        · intro _
          rw [tryTs_take_last hm]
          rfl
      | none =>
        rw [scan1_cons_none tryTs hm]
        refine ⟨?_, ih cs hcs (some c) (some c) (some c) hin2 (fun h => h)⟩
        by_cases hhex : isHexC c = true
        · by_cases hb' : boundaryOk p' = true
          · have hb : boundaryOk pin = true := hrel hb'
            obtain ⟨ps0, hps0⟩ : ∃ ps0, uuidPat = isHexC :: ps0 := ⟨_, uuidPat_expand⟩
            have hred : ∀ X, matchPreds uuidPat (c :: X) = matchPreds ps0 X := by
              intro X
              rw [hps0, matchPreds, if_pos hhex]
            have hsuf0 : ps0 <:+ uuidPat := by
              rw [hps0]
              exact List.suffix_cons _ _
            obtain ⟨wn, ws⟩ := uuidPat_walk_ts ps0 hsuf0 cs (some c)
            simp only [tryUuid] at hin1
            rw [if_pos hb, hred cs] at hin1
            cases hmp : matchPreds ps0 cs with
            | none => exact tryUuid_fail_preds (by rw [hred]; exact wn hmp) p'
            | some rest =>
              rw [hmp] at hin1
              have hin' : (if afterOk rest = true then some (35, uuidTok)
                  else (none : Option (Nat × List Char))) = none := hin1
              have haf : afterOk rest = false := by
                by_contra hafc
                rw [if_pos (by simpa using hafc)] at hin'
                simp at hin'
              rcases ws rest hmp haf with hout | ⟨rest', ho1, ho2⟩
              · exact tryUuid_fail_preds (by rw [hred]; exact hout) p'
              · exact tryUuid_fail_after (by rw [hred]; exact ho1) ho2 p'
          · exact tryUuid_noBoundary (by simpa using hb') c _
        · exact tryUuid_nonHex (by simpa using hhex) p' _

theorem redactVolatile_idem (s : List Char) :
    redactVolatile (redactVolatile s) = redactVolatile s := by
  unfold redactVolatile
  simp only [scanRepl_eq_scan1]
  set y1 := scan1 tryNum none s with hy1
  set y2 := scan1 tryUuid none y1 with hy2
  set y3 := scan1 tryTs none y2 with hy3
  have hN1 : NoMatch tryNum none y1 :=
    scanN_noNum s.length s le_rfl none none (Or.inl (fun h => h))
  have hN2 : NoMatch tryNum none y2 :=
    scanU_preserves_noNum y1.length y1 le_rfl none none hN1 (Or.inl (fun h => h))
  have hN3 : NoMatch tryNum none y3 :=
    scanT_preserves_noNum y2.length y2 le_rfl none none none hN2 (fun h => h)
  have hU2 : NoMatch tryUuid none y2 :=
    scanU_noUuid y1.length y1 le_rfl none none (Or.inl (fun h => h))
  have hU3 : NoMatch tryUuid none y3 :=
    scanT_preserves_noUuid y2.length y2 le_rfl none none none hU2 (fun h => h)
  rw [scan1_of_noMatch tryNum none y3 hN3, scan1_of_noMatch tryUuid none y3 hU3]
  have hT : scanT (scanT y2) = scanT y2 := scanT_idem_aux y2.length y2 le_rfl
  unfold scanT at hT
  exact hT

/-- C9: the response normalizer is idempotent: for every string `x`,
`redactVolatile (redactVolatile x) = redactVolatile x`, where `redactVolatile`
replaces runs of 13 or more digits, canonical UUIDs, and the quoted values of
JSON-style created/updated/timestamp/ts/date keys with placeholder tokens. -/
theorem redact_volatile_idempotent (s : List Char) :
    redactVolatile (redactVolatile s) = redactVolatile s :=
  redactVolatile_idem s
